import Mathlib

namespace Huly

/-!
Verification development for the huly transactor server core:
backup snapshot digest format (src/server/backup/src/backup.ts),
chunk cursors (src/server/core/src/storage.ts), session manager
(src/server/ws/src/server.ts, utils.ts) and blob move (tool).

Strings manipulated by the backup file format are modelled as `List Char`;
JavaScript `String.prototype.split` with a one-character separator is
modelled by `splitChar`.  gzip/gunzip (lossless, external library) are
modelled as the identity on contents.
-/
abbrev Chars := List Char

/-- JS `s.split(sep)` for a single-character separator: always returns a
non-empty list; `"".split(sep) = [""]`. -/
def splitChar (sep : Char) : List Char → List (List Char)
  | [] => [[]]
  | c :: cs =>
    match splitChar sep cs with
    | [] => [[]]
    | l :: ls => if c = sep then [] :: l :: ls else (c :: l) :: ls

/-- Little-endian base-10 digits, via structural recursion on a fuel bound
so that concrete instances evaluate inside the kernel. -/
def digitsRevAux : Nat → Nat → List Nat
  | 0, _ => []
  | fuel + 1, n => if n = 0 then [] else n % 10 :: digitsRevAux fuel (n / 10)

/-- Decimal rendering of a natural number, as produced by the template
literal `${n}` in JS. -/
def natChars (n : Nat) : Chars :=
  if n = 0 then ['0']
  else ((digitsRevAux n n).map fun d => Char.ofNat (48 + d)).reverse

/-- Numeric value of a decimal digit character. -/
def digitVal (c : Char) : Nat := c.toNat - 48

/-- JS `parseInt(s)` restricted to the strings that occur in snapshot
files: the maximal leading run of decimal digits, `none` when there is no
leading digit (NaN). -/
def parseIntJS (s : Chars) : Option Nat :=
  let ds := s.takeWhile Char.isDigit
  if ds.isEmpty then none
  else some (Nat.ofDigits 10 ((ds.map digitVal).reverse))

/-!  JS `Map` (insertion-ordered association list; `set` updates in place,
`delete` removes).  Values of type `Option β` model entries that JS may set
to `undefined` (destructuring `const [k, v] = it.split(';')` can leave `v`
undefined); `jsMapGet` models `Map.get`, which conflates a missing key with
a stored `undefined`. -/
def mset {α β : Type} [DecidableEq α] : List (α × β) → α → β → List (α × β)
  | [], k, v => [(k, v)]
  | (a, b) :: t, k, v => if a = k then (k, v) :: t else (a, b) :: mset t k v

def mget {α β : Type} [DecidableEq α] : List (α × β) → α → Option β
  | [], _ => none
  | (a, b) :: t, k => if a = k then some b else mget t k

def mdel {α β : Type} [DecidableEq α] (m : List (α × β)) (k : α) : List (α × β) :=
  m.filter fun p => p.1 ≠ k

namespace Backup

/-- In-memory change set (`Snapshot` in backup.ts): `added`/`updated` are
the entry lists of JS `Map`s in insertion order, `removed` a list of ids. -/
structure Snapshot where
  added : List (Chars × Chars)
  updated : List (Chars × Chars)
  removed : List Chars
deriving DecidableEq

/-- Legacy 0.6 JSON snapshot (`SnapshotV6` in backup.ts); `Record` entries. -/
structure SnapshotV6 where
  added : List (Chars × Chars)
  updated : List (Chars × Chars)
  removed : List Chars
deriving DecidableEq

/-- Per-domain backup state (`DomainData` in backup.ts). -/
structure DomainData where
  snapshot : Option String
  snapshots : List String
  storage : List String
  added : Nat
  updated : Nat
  removed : Nat
deriving DecidableEq

/-- One backup run's snapshot (`BackupSnapshot` in backup.ts); `domains`
models the `Record<Domain, DomainData>`. -/
structure BackupSnapshot where
  domains : List (String × DomainData)
  date : Nat
deriving DecidableEq

/-- Structure `BackupInfo` in backup.ts.  `lastTxId` is optional; the code stores the
empty string while a run is incomplete. -/
structure BackupInfo where
  workspace : String
  version : String
  snapshots : List BackupSnapshot
  snapshotsIndex : Option Nat
  lastTxId : Option String
deriving DecidableEq

/-- Content of a stored file, after gunzip: either a legacy JSON snapshot
(JSON.parse being external, the parsed value is carried directly) or
line-oriented text. -/
inductive FileContent where
  | v6 (s : SnapshotV6)
  | raw (content : Chars)
deriving DecidableEq

/-- Backup storage: file name to content (`loadFile` throws on a missing
name, modelled by `none`). -/
abbrev Storage := List (String × FileContent)

def loadFile (st : Storage) (name : String) : Option FileContent :=
  (st.find? fun p => p.1 = name).map fun p => p.2

/-- The digest map under construction (`result` in `loadDigest`). -/
abbrev Digest := List (Chars × Option Chars)

def jsMapGet (m : Digest) (k : Chars) : Option Chars := (mget m k).join

/-- Terminate every line with a newline and concatenate (the stream of `write` calls
in `writeChanges`, each of which appends one line plus a newline). -/
def joinLines (ls : List Chars) : Chars := (ls.map fun l => l ++ ['\n']).flatten

/-- The lines `writeChanges` (backup.ts lines 202-226) emits for a change
set: count of added, the `id;hash` lines, count of updated, those lines,
count of removed, the bare `id` lines. -/
def snapshotLines (changes : Snapshot) : List Chars :=
  [natChars changes.added.length] ++ (changes.added.map fun p => p.1 ++ ';' :: p.2)
    ++ [natChars changes.updated.length] ++ (changes.updated.map fun p => p.1 ++ ';' :: p.2)
    ++ [natChars changes.removed.length] ++ changes.removed

/-- Function `writeChanges`: the byte content written for a change set (each line of
`snapshotLines` followed by a newline). -/
def writeChanges (changes : Snapshot) : Chars := joinLines (snapshotLines changes)

/-- Model of `dataBlob.shift() ?? '0'` followed by `parseInt`: on an empty list the
shift yields undefined hence `'0'`; a NaN count makes the subsequent
`splice(0, NaN)` take 0 elements (modelled by `getD 0`). -/
def shiftCount : List Chars → Nat × List Chars
  | [] => (0, [])
  | h :: t => ((parseIntJS h).getD 0, t)

/-- First component of `it.split(';')` (the destructured `k`). -/
def entryKey (l : Chars) : Chars := (splitChar ';' l).headD []

/-- Second component of `it.split(';')` (the destructured `v`), undefined
when the line has no separator. -/
def entryVal (l : Chars) : Option Chars := ((splitChar ';' l).drop 1).head?

/-- The parse of one incremental snapshot file, done the way `loadDigest`
does (backup.ts lines 151-172): shift a count, splice that many `id;hash`
lines, for added and updated, then a count of bare removed ids. -/
def decodeChanges (lines : List Chars) :
    List (Chars × Option Chars) × List (Chars × Option Chars) × List Chars :=
  let (na, r1) := shiftCount lines
  let added := (r1.take na).map fun l => (entryKey l, entryVal l)
  let r2 := r1.drop na
  let (nu, r3) := shiftCount r2
  let updated := (r3.take nu).map fun l => (entryKey l, entryVal l)
  let r4 := r3.drop nu
  let (nr, r5) := shiftCount r4
  (added, updated, r5.take nr)

/-- Effect of one incremental snapshot file on the digest map, exactly as
`loadDigest` applies it: `result.set` over added, then updated, then
`result.delete` over removed. -/
def applySnapshotLines (m : Digest) (lines : List Chars) : Digest :=
  let (a, u, r) := decodeChanges lines
  let m1 := a.foldl (fun m p => mset m p.1 p.2) m
  let m2 := u.foldl (fun m p => mset m p.1 p.2) m1
  r.foldl (fun m k => mdel m k) m2

def applySnapshotFile (m : Digest) (content : Chars) : Digest :=
  applySnapshotLines m (splitChar '\n' content)

/-- Keys must stay clear of the line and field separators for the format to
round-trip (ids are ObjectID-like strings, hashes hex digests). -/
def okStr (s : Chars) : Prop := '\n' ∉ s ∧ ';' ∉ s

def snapshotWF (c : Snapshot) : Prop :=
  (∀ p ∈ c.added, okStr p.1 ∧ okStr p.2) ∧
  (∀ p ∈ c.updated, okStr p.1 ∧ okStr p.2) ∧
  (∀ k ∈ c.removed, '\n' ∉ k)

instance : DecidablePred okStr := fun s => by unfold okStr; infer_instance

instance : ∀ c, Decidable (snapshotWF c) := fun c => by unfold snapshotWF; infer_instance

/-- Apply `result.set` over added entries, then over updated entries, then
`result.delete` over removed ids — the common body of the legacy-JSON
branch (backup.ts lines 139-147) and, after decoding, of the incremental
branch; values stored by these branches are always defined. -/
def applyChangeLists (m : Digest) (added updated : List (Chars × Chars))
    (removed : List Chars) : Digest :=
  let m1 := added.foldl (fun m p => mset m p.1 (some p.2)) m
  let m2 := updated.foldl (fun m p => mset m p.1 (some p.2)) m1
  removed.foldl (fun m k => mdel m k) m2

/-- One incremental snapshot file inside the per-file `try` (backup.ts
lines 149-175): a missing file throws and is caught (digest broken, file
skipped); a legacy JSON value in raw position parses no counts (`parseInt`
of `{` is NaN) and contributes nothing. -/
def applyIncrFile (st : Storage) (m : Digest) (name : String) : Digest :=
  match loadFile st name with
  | none => m
  | some (.raw content) => applySnapshotFile m content
  | some (.v6 _) => m

def domainOf (s : BackupSnapshot) (dom : String) : Option DomainData :=
  (s.domains.find? fun p => p.1 = dom).map fun p => p.2

/-- Legacy-JSON part of one `loadDigest` iteration (backup.ts lines
136-148).  It sits outside any `try`: a missing file or a non-JSON content
makes `loadDigest` itself throw, hence the `Option`. -/
def loadV6Part (st : Storage) (m : Digest) (dd : Option DomainData) : Option Digest :=
  match dd with
  | none => some m
  | some d =>
    match d.snapshot with
    | none => some m
    | some n6 =>
      match loadFile st n6 with
      | some (.v6 v) => some (applyChangeLists m v.added v.updated v.removed)
      | _ => none

/-- Incremental part of one `loadDigest` iteration (backup.ts line 149):
`for (const snapshot of d?.snapshots ?? [])`. -/
def incrPart (st : Storage) (dd : Option DomainData) (m1 : Digest) : Digest :=
  (match dd with | none => [] | some d => d.snapshots).foldl (applyIncrFile st) m1

/-- One full iteration of the `loadDigest` snapshot loop. -/
def stepDigest (st : Storage) (dom : String) (m : Digest) (s : BackupSnapshot) :
    Option Digest :=
  match loadV6Part st m (domainOf s dom) with
  | none => none
  | some m1 => some (incrPart st (domainOf s dom) m1)

/-- Function `loadDigest` (backup.ts lines 124-184): fold the snapshot chain in
array order; per snapshot apply the legacy JSON snapshot, then each
incremental file, and stop after the snapshot whose date equals the target
date. -/
def loadDigestGo (st : Storage) (dom : String) (date : Option Nat) :
    List BackupSnapshot → Digest → Option Digest
  | [], m => some m
  | s :: rest, m =>
    match stepDigest st dom m s with
    | none => none
    | some m2 => if date = some s.date then some m2 else loadDigestGo st dom date rest m2

def loadDigest (st : Storage) (snapshots : List BackupSnapshot) (dom : String)
    (date : Option Nat) : Option Digest :=
  loadDigestGo st dom date snapshots []

/-!  Specification side, written from the spec's words: a domain's digest
is the map `id -> contentHash` obtained by folding the chain in
chronological order, inserting each snapshot's added then updated entries
(later snapshot wins) then deleting its removed ids, optionally stopping
at a target date.  A chain snapshot is abstracted as a date plus the
change sets it holds for the domain. -/
abbrev SMap := Chars → Option Chars

def specInsert (m : SMap) (k v : Chars) : SMap := fun x => if x = k then some v else m x

def specRemove (m : SMap) (k : Chars) : SMap := fun x => if x = k then none else m x

/-- Snapshot chain element as the spec describes it. -/
structure SnapAbs where
  date : Nat
  triples : List Snapshot

def specApplySnapshot (m : SMap) (t : Snapshot) : SMap :=
  t.removed.foldl specRemove
    (t.updated.foldl (fun m p => specInsert m p.1 p.2)
      (t.added.foldl (fun m p => specInsert m p.1 p.2) m))

def specDigestGo (date : Option Nat) : List SnapAbs → SMap → SMap
  | [], m => m
  | s :: rest, m =>
    let m2 := s.triples.foldl specApplySnapshot m
    if date = some s.date then m2 else specDigestGo date rest m2

/-- Digest as described by the spec sentence of C1. -/
def specDigest (chain : List SnapAbs) (date : Option Nat) : SMap :=
  specDigestGo date chain fun _ => none

/-- Each named incremental file of the concrete snapshot holds exactly the
`writeChanges` encoding of the corresponding abstract change set. -/
def filesEncode (st : Storage) : List String → List Snapshot → Bool
  | [], [] => true
  | n :: ns, t :: ts =>
    decide (loadFile st n = some (.raw (writeChanges t))) && filesEncode st ns ts
  | _, _ => false

/-- The concrete snapshot's files for `dom` realize the abstract snapshot:
same date; a legacy JSON snapshot, when present, is the first change set;
the incremental files encode the remaining ones, in order. -/
def snapshotEncodes (st : Storage) (dom : String) (s : BackupSnapshot) (a : SnapAbs) : Bool :=
  decide (s.date = a.date) &&
  match domainOf s dom with
  | none => a.triples.isEmpty
  | some d =>
    match d.snapshot, a.triples with
    | none, ts => filesEncode st d.snapshots ts
    | some n6, t0 :: ts =>
      decide (loadFile st n6 = some (.v6 ⟨t0.added, t0.updated, t0.removed⟩))
        && filesEncode st d.snapshots ts
    | some _, [] => false

def chainEncodes (st : Storage) (dom : String) :
    List BackupSnapshot → List SnapAbs → Bool
  | [], [] => true
  | s :: ss, a :: rest => snapshotEncodes st dom s a && chainEncodes st dom ss rest
  | _, _ => false

def chainWF (chain : List SnapAbs) : Prop :=
  ∀ a ∈ chain, ∀ t ∈ a.triples, snapshotWF t

instance : ∀ chain, Decidable (chainWF chain) := fun chain => by
  unfold chainWF; infer_instance

/-- Pointwise agreement between the JS map under construction and the
specification map. -/
def agrees (m : Digest) (sm : SMap) : Prop := ∀ x, jsMapGet m x = sm x

/-!  Concrete chain used to exercise the digest theorems: a legacy JSON
snapshot plus three incremental files over domain `d`, with an overwrite,
a removal, and a later snapshot past the target date. -/
def wt0 : Snapshot := ⟨[(['z'], ['0'])], [], []⟩

def wt1 : Snapshot := ⟨[(['a'], ['1']), (['b'], ['1'])], [], []⟩

def wt2 : Snapshot := ⟨[(['c'], ['2'])], [(['a'], ['2'])], [['b']]⟩

def wt3 : Snapshot := ⟨[], [], [['a']]⟩

def wStorage : Storage :=
  [("v6f", .v6 ⟨wt0.added, wt0.updated, wt0.removed⟩),
   ("f1", .raw (writeChanges wt1)),
   ("f2", .raw (writeChanges wt2)),
   ("f3", .raw (writeChanges wt3))]

def wSnaps : List BackupSnapshot :=
  [⟨[("d", ⟨some "v6f", ["f1"], [], 0, 0, 0⟩)], 1⟩,
   ⟨[("d", ⟨none, ["f2"], [], 0, 0, 0⟩)], 2⟩,
   ⟨[("d", ⟨none, ["f3"], [], 0, 0, 0⟩)], 3⟩]

def wChain : List SnapAbs := [⟨1, [wt0, wt1]⟩, ⟨2, [wt2]⟩, ⟨3, [wt3]⟩]

end Backup

namespace CoreStorage

/-!  Structure `BackupClientOps` (src/server/core/src/storage.ts).  The pipeline
storage iterator created by `_pipeline.storage.find` is modelled as the
list of documents it has yet to yield; `estimateDocSize` lives outside
src/ and is carried as an abstract size function `est`. -/
structure DocInfo where
  id : String
  hash : String
  size : Nat
deriving DecidableEq

def chunkSize : Nat := 2 * 1024 * 1024

structure ChunkInfo where
  idx : Nat
  index : Nat
  finished : Bool
  iterator : List DocInfo
deriving DecidableEq

structure BackupClientOps where
  idIndex : Nat
  chunkInfo : List (Nat × ChunkInfo)
  domainDocs : List DocInfo
deriving DecidableEq

structure LoadChunkResult where
  idx : Nat
  docs : List DocInfo
  finished : Bool
deriving DecidableEq

/-- The `while (size < chunkSize)` loop of `loadChunk` (storage.ts lines
70-82): returns the docs collected, the iterator's remaining docs, and
whether the iterator was exhausted (`chunk.finished = true`). -/
def collectDocs (est : DocInfo → Nat) : List DocInfo → Nat → List DocInfo × List DocInfo × Bool
  | iter, size =>
    if chunkSize ≤ size then ([], iter, false)
    else
      match iter with
      | [] => ([], [], true)
      | d :: rest =>
        let r := collectDocs est rest (size + est d)
        (d :: r.1, r.2.1, r.2.2)

/-- Function `loadChunk` (storage.ts lines 44-90): allocate `idx` when absent, bump
the existing cursor's call counter, return immediately on a finished
cursor, otherwise collect the next size-bounded chunk from the iterator. -/
def loadChunk (est : DocInfo → Nat) (ops : BackupClientOps) (idxArg : Option Nat) :
    LoadChunkResult × BackupClientOps :=
  let idx := idxArg.getD ops.idIndex
  let idIndex2 := match idxArg with | none => ops.idIndex + 1 | some _ => ops.idIndex
  match mget ops.chunkInfo idx with
  | some chunk =>
    let chunk2 := { chunk with index := chunk.index + 1 }
    if chunk2.finished then
      (⟨idx, [], true⟩,
       { ops with idIndex := idIndex2, chunkInfo := mset ops.chunkInfo idx chunk2 })
    else
      let r := collectDocs est chunk2.iterator 0
      let chunk3 := { chunk2 with iterator := r.2.1, finished := r.2.2 }
      (⟨idx, r.1, chunk3.finished⟩,
       { ops with idIndex := idIndex2, chunkInfo := mset ops.chunkInfo idx chunk3 })
  | none =>
    let chunk : ChunkInfo := ⟨idx, 0, false, ops.domainDocs⟩
    let r := collectDocs est chunk.iterator 0
    let chunk3 := { chunk with iterator := r.2.1, finished := r.2.2 }
    (⟨idx, r.1, chunk3.finished⟩,
     { ops with idIndex := idIndex2, chunkInfo := mset ops.chunkInfo idx chunk3 })

/-- Iterate `n + 1` successive `loadChunk` calls against the same index; the result
of the last one. -/
def loadChunkN (est : DocInfo → Nat) : BackupClientOps → Nat → Nat → LoadChunkResult × BackupClientOps
  | ops, idx, 0 => loadChunk est ops (some idx)
  | ops, idx, n + 1 => loadChunkN est (loadChunk est ops (some idx)).2 idx n

end CoreStorage

namespace Backup

/-- The `if (lastTx._id === backupInfo.lastTxId && !options.force)` check
(backup.ts lines 589-594), guarded by `lastTx !== undefined`. -/
def skipCond (bi : BackupInfo) (lastTx : Option String) (force : Bool) : Bool :=
  match lastTx with
  | some t => decide (bi.lastTxId = some t) && !force
  | none => false

structure BackupRun where
  info : BackupInfo
  skipped : Bool
deriving DecidableEq

/-- Function `backup` (backup.ts lines 566-604 and 957-969) at run-control level:
normalize version/workspace, return as a no-op when the latest transaction
id matches the recorded `lastTxId` and `force` is unset; otherwise clear
`lastTxId`, append a fresh snapshot, process the domains (`dp`, the
lines 625-963 loop, abstracted), and—only when not canceled—record
`snapshotsIndex` and `lastTxId = lastTx?._id ?? '0'`. -/
def backupRun (dp : BackupInfo → BackupInfo) (wsName : String) (info0 : BackupInfo)
    (lastTx : Option String) (force canceled : Bool) (now : Nat) : BackupRun :=
  let bi := { info0 with version := "0.6.2", workspace := wsName }
  if skipCond bi lastTx force then { info := bi, skipped := true }
  else
    let bi1 := { bi with lastTxId := some "" }
    let bi2 := { bi1 with snapshots := bi1.snapshots ++ [⟨[], now⟩] }
    let bi3 := dp bi2
    if canceled then { info := bi3, skipped := false }
    else
      { info := { bi3 with snapshotsIndex := some bi3.snapshots.length,
                           lastTxId := some (lastTx.getD "0") },
        skipped := false }

/-- Invariant of `processDomain`: it mutates per-domain data and storage files but never the
run bookkeeping fields. -/
def dpPreserves (dp : BackupInfo → BackupInfo) : Prop :=
  ∀ bi, (dp bi).lastTxId = bi.lastTxId ∧ (dp bi).version = bi.version ∧
    (dp bi).workspace = bi.workspace

end Backup

namespace Ws

/-!  Session manager (src/server/ws/src/server.ts). -/
structure Version where
  major : Nat
  minor : Nat
  patch : Nat
deriving DecidableEq

/-- Function `versionToString` from the core package: `"major.minor.patch"`. -/
def versionToString (v : Version) : String :=
  toString v.major ++ "." ++ toString v.minor ++ "." ++ toString v.patch

/-- The token claims `addSession` branches on. -/
structure Token where
  email : String
  extraModel : Option String
  extraMode : Option String
  extraAdmin : Option String
deriving DecidableEq

/-- The parts of the resolved workspace login info `addSession` inspects. -/
structure WorkspaceLoginInfo where
  creating : Bool
  version : Option Version
deriving DecidableEq

/-- Modelled from the spec: the privileged system account email, a constant
of the core package (outside src/); only its identity is relevant. -/
def systemAccountEmail : String := "system@account"

/-- Live-workspace state that decides the post-gate branches. -/
structure WorkspaceState where
  upgrade : Bool
deriving DecidableEq

inductive AddSessionOutcome where
  | err
  | upgrade
  | session
deriving DecidableEq

/-- The version-gate condition (server.ts lines 288-294). -/
def versionMismatch (modelVersion : String) (wi : WorkspaceLoginInfo) (token : Token) : Bool :=
  decide (modelVersion ≠ "") &&
  (match wi.version with
   | none => false
   | some v => decide (modelVersion ≠ versionToString v)) &&
  decide (token.extraModel ≠ some "upgrade") &&
  decide (token.extraMode ≠ some "backup")

/-- Function `wsFromToken` (server.ts lines 395-408): synthesized info carries no
version. -/
def wsFromToken : WorkspaceLoginInfo := ⟨false, none⟩

/-- Function `addSession` (server.ts lines 246-393) at the outcome level, after the
accounts-service resolution: the creating-phase and no-access error
returns (277-286), the version gate (288-301), then the upgrade-claim
branch (337-363, both arms of which construct a session), the mid-upgrade
rejection of normal clients (365-373), and session creation (377-392).
A missing live workspace is created with `upgrade` derived from the token
claim (line 539). -/
def addSession (modelVersion : String) (token : Token)
    (workspaceInfo : Option WorkspaceLoginInfo) (existing : Option WorkspaceState) :
    AddSessionOutcome :=
  if (match workspaceInfo with | some wi => wi.creating | none => false)
      && decide (token.email ≠ systemAccountEmail) then .err
  else if workspaceInfo.isNone && decide (token.extraAdmin ≠ some "true") then .err
  else
    let wi := workspaceInfo.getD wsFromToken
    if versionMismatch modelVersion wi token then .upgrade
    else
      let wsUpgrade := match existing with
        | some w => w.upgrade
        | none => token.extraModel == some "upgrade"
      if token.extraModel == some "upgrade" then .session
      else if wsUpgrade then .upgrade
      else .session

inductive SessionAction where
  | closeSocket
  | ping
  | idle
deriving DecidableEq

/-- Per-session body of `handleInterval` (server.ts lines 165-187): the
hang timeout is 60000 ms, multiplied by 10 for the privileged system
account; sessions silent beyond it are force-closed on ticks divisible by
10, and sessions silent between 20 and 60 seconds get a keepalive ping on
those ticks. -/
def sessionTick (now lastRequest : Int) (user : String) (ticks : Nat) : SessionAction :=
  let diff := now - lastRequest
  let timeout : Int := if user = systemAccountEmail then 60000 * 10 else 60000
  if diff > timeout ∧ ticks % 10 = 0 then .closeSocket
  else if diff > 20000 ∧ diff < 60000 ∧ ticks % 10 = 0 then .ping
  else .idle

/-- The workspace fields involved in the soft-shutdown countdown and the
close race (server.ts): the generated `id`, the session count, the
`softShutdown` counter and whether a `closing` promise is installed. -/
structure WorkspaceLife where
  id : String
  sessionsCount : Nat
  softShutdown : Int
  closing : Bool
deriving DecidableEq

/-- Per-workspace tail of `handleInterval` (server.ts lines 200-214):
decrement `softShutdown` when the workspace has no sessions and no close
is in flight, triggering the close sequence when it reaches 0; any other
tick resets the counter to 3.  The returned flag reports whether the close
sequence was started. -/
def workspaceTick (w : WorkspaceLife) : WorkspaceLife × Bool :=
  if w.sessionsCount = 0 ∧ w.closing = false then
    let s := w.softShutdown - 1
    if s ≤ 0 then ({ w with softShutdown := s, closing := true }, true)
    else ({ w with softShutdown := s }, false)
  else ({ w with softShutdown := 3 }, false)

/-- Function `performWorkspaceCloseCheck` (server.ts lines 761-805): with no
sessions on the captured workspace, await the pipeline and close it (both
bounded by timeouts); on success remove the key only if the installed
workspace still carries the captured id; if the pipeline wait/close throws,
the catch handler removes the key unconditionally. -/
def performWorkspaceCloseCheck (live : List (String × WorkspaceLife))
    (captured : WorkspaceLife) (wsid : String) (pipelineFails : Bool) :
    List (String × WorkspaceLife) :=
  if captured.sessionsCount = 0 then
    if pipelineFails then mdel live wsid
    else if (mget live wsid).map (fun w => w.id) = some captured.id then mdel live wsid
    else live
  else live

/-!  Function `handleSend` (src/server/ws/src/utils.ts lines 59-105).  Result items
are abstracted as opaque ids (`Nat`); the serialized length of an item is
given by a size function `sz`, and `JSON.stringify` of an array is
modelled as brackets plus items plus separating commas. -/
/-- Lower-level model of `JSON.stringify(data).length` for an array:
`'['` + items + a separator/closing character per item. -/
def jsonArrayLen (sz : Nat → Nat) (l : List Nat) : Nat :=
  1 + (l.map sz).sum + l.length

/-- Model of `Math.round(p / q)` for non-negative integers with `q > 0`. -/
def jsRound (p q : Nat) : Nat := (2 * p + q) / (2 * q)

/-- One chunk frame: the `{...msg, result: chunk, chunk: {index, final}}`
envelope. `toFindResult` (core package, outside src/) wraps a plain array;
per the spec the aggregate metadata (total, lookup map) rides only on the
final chunk. -/
structure Frame where
  index : Nat
  final : Bool
  result : List Nat
  total : Option Nat
  lookupMap : Option Nat
deriving DecidableEq

/-- The response message: a `FindResult` array with optional aggregate
metadata. -/
structure ResponseMsg where
  result : List Nat
  total : Option Nat
  lookupMap : Option Nat
deriving DecidableEq

inductive SendResult where
  | single
  | chunked (frames : List Frame)
deriving DecidableEq

/-- Computation of `itemChunkCurrent` (utils.ts lines 78-81): take all remaining items
when fewer than another half-chunk would be left over, else `itemChunk`;
the JS comparison `data.length - itemChunk < itemChunk / 2` is over
rationals, i.e. `2 * (length - itemChunk) < itemChunk`. -/
def curOf (itemChunk len : Nat) : Nat :=
  if 2 * ((len : Int) - itemChunk) < (itemChunk : Int) then len else itemChunk

/-- The `while (data.length > 0)` splitting loop of `handleSend` (utils.ts
lines 77-101) over an open socket: splice off `itemChunkCurrent` items,
emit the frame, and continue with an incremented chunk index.  `fuel`
bounds the recursion and is initialized to the array length, which
suffices since `itemChunk ≥ 1`. -/
def sendLoop (itemChunk : Nat) (origTotal : Option Nat) (origLookup : Option Nat) :
    Nat → List Nat → Nat → List Frame
  | 0, _, _ => []
  | _ + 1, [], _ => []
  | fuel + 1, d :: ds, cid =>
    let cur := curOf itemChunk (d :: ds).length
    let chunk := (d :: ds).take cur
    let rest := (d :: ds).drop cur
    let fr : Frame :=
      ⟨cid, rest.isEmpty, chunk,
        if rest.isEmpty then some (origTotal.getD 0) else none,
        if rest.isEmpty then origLookup else none⟩
    fr :: sendLoop itemChunk origTotal origLookup fuel rest (cid + 1)

/-- Function `handleSend` (utils.ts lines 59-105): array results longer than one
item with a positive chunk limit are split into frames sized by
`itemChunk = round(chunkLimit / avg) + 1` where `avg` is the rounded
average serialized item size; anything else is sent as a single
unchunked message. -/
def handleSend (sz : Nat → Nat) (msg : ResponseMsg) (chunkLimit : Nat) : SendResult :=
  if msg.result.length > 1 ∧ chunkLimit > 0 then
    let data := msg.result
    let dataSize := jsonArrayLen sz data
    let avg := jsRound dataSize data.length
    let itemChunk := jsRound chunkLimit avg + 1
    .chunked (sendLoop itemChunk msg.total msg.lookupMap data.length data 1)
  else .single

/-- The frame sequence `handleSend` produces on the chunked path. -/
def framesOf (sz : Nat → Nat) (msg : ResponseMsg) (chunkLimit : Nat) : List Frame :=
  sendLoop (jsRound chunkLimit (jsRound (jsonArrayLen sz msg.result) msg.result.length) + 1)
    msg.total msg.lookupMap msg.result.length msg.result 1

end Ws

namespace MoveTool

/-!  Function `processAdapter` (src/unnamed/part_005 lines 1462-1595), the per-source
pass of `moveFiles`.  The source listing is the concatenation of the
`listStream` bulks; per-blob copy outcomes come from an attempt oracle fed
to the 5-try `retryOnFailure`. -/
structure BlobRec where
  id : String
  provider : String
  size : Nat
deriving DecidableEq

/-- Function `retryOnFailure` (part_005 lines 1616-1633): up to `retries` attempts,
returning success as soon as one attempt succeeds; all failing means the
last error is rethrown (caught by the per-blob handler). -/
def retryOk (ok : Nat → Bool) : Nat → Nat → Bool
  | 0, _ => false
  | r + 1, i => ok i || retryOk ok r (i + 1)

/-- The per-blob body of the listing loop (lines 1528-1575), accumulating
the `toRemove` deletion queue: a blob already present on the target is
queued directly (after index reconciliation, which does not affect the
queue); otherwise a blob whose `source.stat` misses is skipped, a blob
whose copy+sync succeeds within 5 retries is queued, and a failed blob is
logged and not queued. -/
def processBlob (targetIds : List String) (sourceStat : String → Bool)
    (copyAttempts : String → Nat → Bool) (acc : List String) (b : BlobRec) : List String :=
  if targetIds.contains b.id then acc ++ [b.id]
  else if sourceStat b.id then
    if retryOk (copyAttempts b.id) 5 0 then acc ++ [b.id] else acc
  else acc

def moveQueue (targetIds : List String) (sourceStat : String → Bool)
    (copyAttempts : String → Nat → Bool) (blobs : List BlobRec) : List String :=
  blobs.foldl (processBlob targetIds sourceStat copyAttempts) []

/-- Model of `toRemove.splice(0, 500)` batching (lines 1586-1589), via structural
fuel. -/
def chunkListGo (n : Nat) : Nat → List String → List (List String)
  | 0, _ => []
  | _ + 1, [] => []
  | fuel + 1, x :: xs => ((x :: xs).take n) :: chunkListGo n fuel ((x :: xs).drop n)

/-- The batched `source.remove` calls issued at the end of
`processAdapter` (lines 1584-1590): batches of at most 500 queued ids, and
only when the `move` flag is set. -/
def processAdapter (move : Bool) (targetIds : List String) (sourceStat : String → Bool)
    (copyAttempts : String → Nat → Bool) (blobs : List BlobRec) : List (List String) :=
  let toRemove := moveQueue targetIds sourceStat copyAttempts blobs
  if toRemove.length > 0 ∧ move = true then chunkListGo 500 toRemove.length toRemove
  else []

/-- A blob qualifies for the deletion queue. -/
def queued (targetIds : List String) (sourceStat : String → Bool)
    (copyAttempts : String → Nat → Bool) (b : BlobRec) : Bool :=
  targetIds.contains b.id ||
    (sourceStat b.id && retryOk (copyAttempts b.id) 5 0)

end MoveTool

namespace Restore

/-!  The removal pass of `restore.processDomain` (backup.ts lines
1356-1378).  `connection.clean` calls are recorded as (domain, id batch)
pairs; a failure oracle drives the retry/re-queue loop of
`performCleanOfDomain` (a batch whose clean fails is pushed back onto the
end of the queue). -/
/-- Domain name constants from the core package (outside src/); the
`fulltext-blob` literal also appears in backup.ts itself. -/
def DOMAIN_BLOB : String := "blob"

def DOMAIN_DOC_INDEX_STATE : String := "doc-index-state"

def DOMAIN_FULLTEXT_BLOB : String := "fulltext-blob"

/-- Computation of `docsToRemove` (backup.ts line 1207): server ids absent from the
target digest. -/
def docsToRemoveOf (serverKeys digestKeys : List String) : List String :=
  serverKeys.filter fun k => ¬ digestKeys.contains k

/-- Function `performCleanOfDomain` (lines 1356-1367) with a schedule of clean-call
outcomes (`false` = the call throws; once the schedule is exhausted calls
succeed): splice off up to 10000 ids, attempt the clean, and push a failed
batch back onto the end of the queue.  Structural fuel
`schedule.length + docs.length` covers the recursion. -/
def performCleanGo (c : String) : Nat → List Bool → List String → List (String × List String)
  | 0, _, _ => []
  | _ + 1, _, [] => []
  | fuel + 1, sched, d :: ds =>
    let part := (d :: ds).take 10000
    let rest := (d :: ds).drop 10000
    match sched with
    | [] => (c, part) :: performCleanGo c fuel [] rest
    | true :: s2 => (c, part) :: performCleanGo c fuel s2 rest
    | false :: s2 => performCleanGo c fuel s2 (rest ++ part)

def performCleanOfDomain (sched : List Bool) (docs : List String) (c : String) :
    List (String × List String) :=
  performCleanGo c (sched.length + docs.length) sched docs

/-- The removal pass (lines 1368-1378): never for the blob domain, only
when `merge` is off and something is to remove; cleaning the
doc-index-state domain first cleans the fulltext domain with a copy of the
same id set. -/
def restoreRemovalPass (c : String) (docsToRemove : List String) (merge : Bool)
    (schedF schedC : List Bool) : List (String × List String) :=
  if c ≠ DOMAIN_BLOB then
    if docsToRemove.length > 0 ∧ merge ≠ true then
      (if c = DOMAIN_DOC_INDEX_STATE
        then performCleanOfDomain schedF docsToRemove DOMAIN_FULLTEXT_BLOB
        else [])
        ++ performCleanOfDomain schedC docsToRemove c
    else []
  else []

end Restore

theorem splitChar_ne_nil (sep : Char) (s : List Char) : splitChar sep s ≠ [] := by
  cases s with
  | nil => simp [splitChar]
  | cons c cs =>
    simp only [splitChar]
    cases h : splitChar sep cs with
    | nil => simp
    | cons l ls =>
      by_cases hc : c = sep <;> simp [hc]

theorem splitChar_no_sep (sep : Char) (l : List Char) (h : sep ∉ l) :
    splitChar sep l = [l] := by
  induction l with
  | nil => rfl
  | cons c cs ih =>
    have hc : c ≠ sep := fun hcc => h (hcc ▸ List.mem_cons_self c cs)
    have hcs : sep ∉ cs := fun hm => h (List.mem_cons_of_mem c hm)
    simp only [splitChar, ih hcs]
    simp [hc]

theorem splitChar_append_sep (sep : Char) (l r : List Char) (h : sep ∉ l) :
    splitChar sep (l ++ sep :: r) = l :: splitChar sep r := by
  induction l with
  | nil =>
    simp only [List.nil_append, splitChar]
    cases hr : splitChar sep r with
    | nil => exact absurd hr (splitChar_ne_nil sep r)
    | cons a as => simp
  | cons c cs ih =>
    have hc : c ≠ sep := fun hcc => h (hcc ▸ List.mem_cons_self c cs)
    have hcs : sep ∉ cs := fun hm => h (List.mem_cons_of_mem c hm)
    simp only [List.cons_append, splitChar, List.append_eq]
    rw [ih hcs]
    simp [hc]

theorem digitsRevAux_eq_digits : ∀ (fuel n : Nat), n ≤ fuel →
    digitsRevAux fuel n = Nat.digits 10 n := by
  intro fuel
  induction fuel with
  | zero =>
    intro n hn
    have : n = 0 := Nat.le_zero.mp hn
    subst this
    simp [digitsRevAux]
  | succ f ih =>
    intro n hn
    by_cases h0 : n = 0
    · subst h0; simp [digitsRevAux]
    · rw [digitsRevAux, if_neg h0]
      rw [Nat.digits_def' (by norm_num : 1 < 10) (Nat.pos_of_ne_zero h0)]
      have hdiv : n / 10 ≤ f := by
        have hlt : n / 10 < n := Nat.div_lt_self (Nat.pos_of_ne_zero h0) (by norm_num)
        omega
      rw [ih (n / 10) hdiv]

theorem natChars_eq_digits (n : Nat) :
    natChars n = if n = 0 then ['0']
      else ((Nat.digits 10 n).map fun d => Char.ofNat (48 + d)).reverse := by
  unfold natChars
  rw [digitsRevAux_eq_digits n n (Nat.le_refl n)]

theorem digitChar_isDigit (d : Nat) (h : d < 10) :
    (Char.ofNat (48 + d)).isDigit = true := by
  interval_cases d <;> decide

theorem digitChar_val (d : Nat) (h : d < 10) :
    digitVal (Char.ofNat (48 + d)) = d := by
  interval_cases d <;> decide

theorem digitChar_ne_nl (d : Nat) (h : d < 10) :
    Char.ofNat (48 + d) ≠ '\n' := by
  interval_cases d <;> decide

theorem digitChar_ne_semi (d : Nat) (h : d < 10) :
    Char.ofNat (48 + d) ≠ ';' := by
  interval_cases d <;> decide

theorem natChars_no_nl (n : Nat) : '\n' ∉ natChars n := by
  rw [natChars_eq_digits]
  by_cases h : n = 0
  · simp [h]
  · simp only [h, if_false, List.mem_reverse, List.mem_map]
    rintro ⟨d, hd, hdc⟩
    have hlt : d < 10 := Nat.digits_lt_base (by norm_num) hd
    exact digitChar_ne_nl d hlt hdc

theorem takeWhile_eq_self_of_all {p : Char → Bool} {l : List Char}
    (h : ∀ c ∈ l, p c = true) : l.takeWhile p = l := by
  induction l with
  | nil => rfl
  | cons c cs ih =>
    simp only [List.takeWhile_cons, h c (List.mem_cons_self c cs)]
    simp [ih fun x hx => h x (List.mem_cons_of_mem c hx)]

theorem map_digit_roundtrip (l : List Nat) (h : ∀ d ∈ l, d < 10) :
    l.map (digitVal ∘ fun d => Char.ofNat (48 + d)) = l := by
  induction l with
  | nil => rfl
  | cons d ds ih =>
    simp only [List.map_cons, List.cons.injEq]
    exact ⟨digitChar_val d (h d (List.mem_cons_self d ds)),
      ih fun x hx => h x (List.mem_cons_of_mem d hx)⟩

/-- Parsing the decimal rendering gives the number back. -/
theorem parseIntJS_natChars (n : Nat) : parseIntJS (natChars n) = some n := by
  by_cases h : n = 0
  · subst h; decide
  · unfold parseIntJS
    rw [natChars_eq_digits]
    simp only [h, if_false]
    have hall : ∀ c ∈ ((Nat.digits 10 n).map fun d => Char.ofNat (48 + d)).reverse,
        Char.isDigit c = true := by
      intro c hc
      rw [List.mem_reverse, List.mem_map] at hc
      obtain ⟨d, hd, rfl⟩ := hc
      exact digitChar_isDigit d (Nat.digits_lt_base (by norm_num) hd)
    rw [takeWhile_eq_self_of_all hall]
    have hne : Nat.digits 10 n ≠ [] := by
      simpa [Nat.digits_ne_nil_iff_ne_zero] using h
    have hnonempty : (((Nat.digits 10 n).map fun d => Char.ofNat (48 + d)).reverse).isEmpty = false := by
      rw [List.isEmpty_eq_false_iff_exists_mem]
      cases hdig : Nat.digits 10 n with
      | nil => exact absurd hdig hne
      | cons a as => exact ⟨Char.ofNat (48 + a), by simp [hdig]⟩
    have hmap : (Nat.digits 10 n).map (digitVal ∘ fun d => Char.ofNat (48 + d)) = Nat.digits 10 n :=
      map_digit_roundtrip _ fun d hd => Nat.digits_lt_base (by norm_num) hd
    simp only [hnonempty, Bool.false_eq_true, if_false, Option.some.injEq]
    rw [List.map_reverse, List.reverse_reverse, List.map_map, hmap, Nat.ofDigits_digits]

theorem mget_mset {α β : Type} [DecidableEq α] (m : List (α × β)) (k : α) (v : β) (x : α) :
    mget (mset m k v) x = if x = k then some v else mget m x := by
  induction m with
  | nil =>
    by_cases hx : x = k
    · subst hx; simp [mset, mget]
    · have hkx : ¬k = x := fun h => hx h.symm
      simp [mset, mget, hx, hkx]
  | cons p t ih =>
    obtain ⟨a, b⟩ := p
    by_cases hak : a = k
    · subst hak
      by_cases hx : x = a
      · subst hx; simp [mset, mget]
      · have hax : ¬a = x := fun h => hx h.symm
        simp [mset, mget, hax, hx]
    · by_cases hxa : x = a
      · subst hxa
        have hxk : ¬x = k := hak
        simp [mset, mget, hak, hxk]
      · have hax : ¬a = x := fun h => hxa h.symm
        simp [mset, mget, hak, hxa, hax, ih]

theorem mget_mdel {α β : Type} [DecidableEq α] (m : List (α × β)) (k : α) (x : α) :
    mget (mdel m k) x = if x = k then none else mget m x := by
  induction m with
  | nil => simp [mdel, mget]
  | cons p t ih =>
    obtain ⟨a, b⟩ := p
    by_cases hak : a = k
    · subst hak
      by_cases hx : x = a
      · subst hx
        simp [mdel, List.filter_cons] at ih ⊢
        simpa using ih
      · have hax : ¬a = x := fun h => hx h.symm
        simp [mdel, mget, List.filter_cons, hax, hx] at ih ⊢
        simpa [hx] using ih
    · by_cases hxa : x = a
      · subst hxa
        have hxk : ¬x = k := hak
        simp [mdel, mget, List.filter_cons, hak, hxk]
      · have hax : ¬a = x := fun h => hxa h.symm
        simp [mdel, mget, List.filter_cons, hak, hax, hxa] at ih ⊢
        exact ih

namespace Backup

theorem splitChar_joinLines (ls : List Chars) (h : ∀ l ∈ ls, '\n' ∉ l) :
    splitChar '\n' (joinLines ls) = ls ++ [[]] := by
  induction ls with
  | nil => rfl
  | cons l t ih =>
    have hl : '\n' ∉ l := h l (List.mem_cons_self l t)
    have ht : ∀ x ∈ t, '\n' ∉ x := fun x hx => h x (List.mem_cons_of_mem l hx)
    have : joinLines (l :: t) = l ++ '\n' :: joinLines t := by
      simp [joinLines]
    rw [this, splitChar_append_sep _ _ _ hl, ih ht]
    rfl

theorem snapshotLines_no_nl (c : Snapshot) (h : snapshotWF c) :
    ∀ l ∈ snapshotLines c, '\n' ∉ l := by
  obtain ⟨ha, hu, hr⟩ := h
  intro l hl
  simp only [snapshotLines, List.mem_append, List.mem_singleton, List.mem_map] at hl
  rcases hl with ((((hl | ⟨p, hp, rfl⟩) | hl) | ⟨p, hp, rfl⟩) | hl) | hl
  · exact hl ▸ natChars_no_nl _
  · obtain ⟨⟨h1, _⟩, ⟨h2, _⟩⟩ := ha p hp
    simp [List.mem_append, h1, h2]
  · exact hl ▸ natChars_no_nl _
  · obtain ⟨⟨h1, _⟩, ⟨h2, _⟩⟩ := hu p hp
    simp [List.mem_append, h1, h2]
  · exact hl ▸ natChars_no_nl _
  · exact hr l hl

theorem splitChar_writeChanges (c : Snapshot) (h : snapshotWF c) :
    splitChar '\n' (writeChanges c) = snapshotLines c ++ [[]] :=
  splitChar_joinLines _ (snapshotLines_no_nl c h)

theorem entryKey_encode (k v : Chars) (hk : ';' ∉ k) :
    entryKey (k ++ ';' :: v) = k := by
  unfold entryKey
  rw [splitChar_append_sep ';' k v hk]
  rfl

theorem entryVal_encode (k v : Chars) (hk : ';' ∉ k) (hv : ';' ∉ v) :
    entryVal (k ++ ';' :: v) = some v := by
  unfold entryVal
  rw [splitChar_append_sep ';' k v hk, splitChar_no_sep ';' v hv]
  rfl

theorem decodeChanges_blocks (A U R : List Chars) :
    decodeChanges (natChars A.length :: (A ++ natChars U.length :: (U ++ natChars R.length :: (R ++ [[]])))) =
      (A.map fun l => (entryKey l, entryVal l), U.map fun l => (entryKey l, entryVal l), R) := by
  unfold decodeChanges shiftCount
  simp only [parseIntJS_natChars, Option.getD_some, List.take_left, List.drop_left]

theorem entryLines_decode (l : List (Chars × Chars))
    (h : ∀ p ∈ l, okStr p.1 ∧ okStr p.2) :
    (l.map fun p => p.1 ++ ';' :: p.2).map (fun s => (entryKey s, entryVal s))
      = l.map fun p => (p.1, some p.2) := by
  rw [List.map_map]
  apply List.map_congr_left
  intro p hp
  obtain ⟨⟨_, h1⟩, ⟨_, h2⟩⟩ := h p hp
  simp [Function.comp, entryKey_encode p.1 p.2 h1, entryVal_encode p.1 p.2 h1 h2]

/-- Round trip at the level of parsed components: decoding the file written
for a change set, the way `loadDigest` decodes it, recovers the added
entries, then the updated entries, then the removed ids. -/
theorem decodeChanges_writeChanges (c : Snapshot) (h : snapshotWF c) :
    decodeChanges (splitChar '\n' (writeChanges c)) =
      (c.added.map fun p => (p.1, some p.2),
       c.updated.map fun p => (p.1, some p.2),
       c.removed) := by
  obtain ⟨ha, hu, hr⟩ := h
  rw [splitChar_writeChanges c ⟨ha, hu, hr⟩]
  have hshape : snapshotLines c ++ [[]] =
      natChars (c.added.map fun p => p.1 ++ ';' :: p.2).length
        :: ((c.added.map fun p => p.1 ++ ';' :: p.2) ++
          natChars (c.updated.map fun p => p.1 ++ ';' :: p.2).length
            :: ((c.updated.map fun p => p.1 ++ ';' :: p.2) ++
              natChars c.removed.length :: (c.removed ++ [[]]))) := by
    simp [snapshotLines]
  rw [hshape, decodeChanges_blocks]
  rw [entryLines_decode c.added ha, entryLines_decode c.updated hu]

theorem applySnapshotFile_writeChanges (m : Digest) (t : Snapshot) (h : snapshotWF t) :
    applySnapshotFile m (writeChanges t) = applyChangeLists m t.added t.updated t.removed := by
  unfold applySnapshotFile applySnapshotLines
  rw [decodeChanges_writeChanges t h]
  unfold applyChangeLists
  simp [List.foldl_map]

theorem agrees_mset (m : Digest) (sm : SMap) (h : agrees m sm) (k v : Chars) :
    agrees (mset m k (some v)) (specInsert sm k v) := by
  intro x
  unfold jsMapGet specInsert
  rw [mget_mset]
  by_cases hx : x = k <;> simp [hx, h x]
  exact h x

theorem agrees_mdel (m : Digest) (sm : SMap) (h : agrees m sm) (k : Chars) :
    agrees (mdel m k) (specRemove sm k) := by
  intro x
  unfold jsMapGet specRemove
  rw [mget_mdel]
  by_cases hx : x = k <;> simp [hx]
  exact h x

theorem agrees_inserts (l : List (Chars × Chars)) :
    ∀ (m : Digest) (sm : SMap), agrees m sm →
      agrees (l.foldl (fun m p => mset m p.1 (some p.2)) m)
        (l.foldl (fun m p => specInsert m p.1 p.2) sm) := by
  induction l with
  | nil => intro m sm h; exact h
  | cons p t ih =>
    intro m sm h
    exact ih _ _ (agrees_mset m sm h p.1 p.2)

theorem agrees_removes (l : List Chars) :
    ∀ (m : Digest) (sm : SMap), agrees m sm →
      agrees (l.foldl (fun m k => mdel m k) m) (l.foldl specRemove sm) := by
  induction l with
  | nil => intro m sm h; exact h
  | cons k t ih =>
    intro m sm h
    exact ih _ _ (agrees_mdel m sm h k)

theorem agrees_applyChangeLists (m : Digest) (sm : SMap) (h : agrees m sm) (t : Snapshot) :
    agrees (applyChangeLists m t.added t.updated t.removed) (specApplySnapshot sm t) := by
  unfold applyChangeLists specApplySnapshot
  exact agrees_removes _ _ _ (agrees_inserts _ _ _ (agrees_inserts _ _ _ h))

theorem agrees_incrFiles (st : Storage) (ns : List String) (ts : List Snapshot) :
    ∀ (m : Digest) (sm : SMap), agrees m sm → filesEncode st ns ts = true →
      (∀ t ∈ ts, snapshotWF t) →
      agrees (ns.foldl (applyIncrFile st) m) (ts.foldl specApplySnapshot sm) := by
  induction ns generalizing ts with
  | nil =>
    intro m sm h henc _
    cases ts with
    | nil => exact h
    | cons t ts2 => exact absurd henc (by simp [filesEncode])
  | cons n ns2 ih =>
    intro m sm h henc hwf
    cases ts with
    | nil => exact absurd henc (by simp [filesEncode])
    | cons t ts2 =>
      simp only [filesEncode, Bool.and_eq_true, decide_eq_true_eq] at henc
      obtain ⟨hfile, henc2⟩ := henc
      have hstep : agrees (applyIncrFile st m n) (specApplySnapshot sm t) := by
        have hred : applyIncrFile st m n = applySnapshotFile m (writeChanges t) := by
          simp [applyIncrFile, hfile]
        rw [hred, applySnapshotFile_writeChanges m t (hwf t (List.mem_cons_self t ts2))]
        exact agrees_applyChangeLists m sm h t
      simp only [List.foldl_cons]
      exact ih ts2 _ _ hstep henc2 fun x hx => hwf x (List.mem_cons_of_mem t hx)

theorem stepDigest_agrees (st : Storage) (dom : String) (s : BackupSnapshot)
    (a : SnapAbs) (m : Digest) (sm : SMap) (h : agrees m sm)
    (henc : snapshotEncodes st dom s a = true)
    (hwfa : ∀ t ∈ a.triples, snapshotWF t) :
    ∃ m2, stepDigest st dom m s = some m2 ∧
      agrees m2 (a.triples.foldl specApplySnapshot sm) := by
  unfold snapshotEncodes at henc
  simp only [Bool.and_eq_true, decide_eq_true_eq] at henc
  obtain ⟨_, hdom⟩ := henc
  cases hd : domainOf s dom with
  | none =>
    rw [hd] at hdom
    have htr : a.triples = [] := by
      have hdom2 : a.triples.isEmpty = true := hdom
      simpa [List.isEmpty_iff] using hdom2
    refine ⟨m, ?_, htr ▸ h⟩
    simp [stepDigest, loadV6Part, incrPart, hd]
  | some d =>
    rw [hd] at hdom
    have hdom2 : (match d.snapshot, a.triples with
        | none, ts => filesEncode st d.snapshots ts
        | some n6, t0 :: ts =>
          decide (loadFile st n6 = some (.v6 ⟨t0.added, t0.updated, t0.removed⟩))
            && filesEncode st d.snapshots ts
        | some _, [] => false) = true := hdom
    cases hsnap : d.snapshot with
    | none =>
      rw [hsnap] at hdom2
      have hfiles : filesEncode st d.snapshots a.triples = true := hdom2
      refine ⟨d.snapshots.foldl (applyIncrFile st) m, ?_,
        agrees_incrFiles st d.snapshots a.triples m sm h hfiles hwfa⟩
      simp [stepDigest, loadV6Part, incrPart, hd, hsnap]
    | some n6 =>
      rw [hsnap] at hdom2
      cases htr : a.triples with
      | nil =>
        rw [htr] at hdom2
        exact absurd hdom2 (by simp)
      | cons t0 ts =>
        rw [htr] at hdom2
        have hdom3 : (decide (loadFile st n6 = some (.v6 ⟨t0.added, t0.updated, t0.removed⟩))
            && filesEncode st d.snapshots ts) = true := hdom2
        simp only [Bool.and_eq_true, decide_eq_true_eq] at hdom3
        obtain ⟨hfile, hrest⟩ := hdom3
        refine ⟨d.snapshots.foldl (applyIncrFile st)
          (applyChangeLists m t0.added t0.updated t0.removed), ?_, ?_⟩
        · simp [stepDigest, loadV6Part, incrPart, hd, hsnap, hfile]
        · simp only [List.foldl_cons]
          exact agrees_incrFiles st d.snapshots ts _ _
            (agrees_applyChangeLists m sm h t0) hrest
            fun x hx => hwfa x (htr ▸ List.mem_cons_of_mem t0 hx)

theorem loadDigestGo_agrees (st : Storage) (dom : String) (date : Option Nat)
    (ss : List BackupSnapshot) :
    ∀ (chain : List SnapAbs) (m : Digest) (sm : SMap), agrees m sm →
      chainEncodes st dom ss chain = true → chainWF chain →
      ∃ m2, loadDigestGo st dom date ss m = some m2 ∧
        agrees m2 (specDigestGo date chain sm) := by
  induction ss with
  | nil =>
    intro chain m sm h henc _
    cases chain with
    | nil => exact ⟨m, rfl, h⟩
    | cons a rest => exact absurd henc (by simp [chainEncodes])
  | cons s ss2 ih =>
    intro chain m sm h henc hwf
    cases chain with
    | nil => exact absurd henc (by simp [chainEncodes])
    | cons a rest =>
      simp only [chainEncodes, Bool.and_eq_true] at henc
      obtain ⟨hse, henc2⟩ := henc
      have hdate : s.date = a.date := by
        unfold snapshotEncodes at hse
        simp only [Bool.and_eq_true, decide_eq_true_eq] at hse
        exact hse.1
      have hwfa : ∀ t ∈ a.triples, snapshotWF t := hwf a (List.mem_cons_self a rest)
      have hwfrest : chainWF rest := fun x hx t ht => hwf x (List.mem_cons_of_mem a hx) t ht
      obtain ⟨m2, hm2, hag⟩ := stepDigest_agrees st dom s a m sm h hse hwfa
      by_cases hdd : date = some s.date
      · refine ⟨m2, ?_, ?_⟩
        · unfold loadDigestGo
          rw [hm2]
          simp [hdd]
        · unfold specDigestGo
          rw [← hdate]
          simp only [hdd, if_pos rfl]
          exact hag
      · obtain ⟨m3, hm3, hag3⟩ := ih rest m2 _ hag henc2 hwfrest
        refine ⟨m3, ?_, ?_⟩
        · unfold loadDigestGo
          rw [hm2]
          simp only [hdd, if_false]
          exact hm3
        · unfold specDigestGo
          rw [← hdate]
          simp only [hdd, if_neg hdd]
          exact hag3

end Backup

/-- C1: for every backup snapshot chain and optional target date,
`loadDigest` returns the map `id -> contentHash` obtained by folding the
snapshots in array (chronological) order — per snapshot insert the added
then the updated entries (a later snapshot's entry overwriting an earlier
one for the same id), then delete the removed ids — stopping after the
snapshot whose date equals the target date when one is given. -/
theorem c1_loadDigest_spec_fold (st : Backup.Storage) (dom : String)
    (snapshots : List Backup.BackupSnapshot) (chain : List Backup.SnapAbs)
    (date : Option Nat)
    (henc : Backup.chainEncodes st dom snapshots chain = true)
    (hwf : Backup.chainWF chain) :
    ∃ m, Backup.loadDigest st snapshots dom date = some m ∧
      ∀ x, Backup.jsMapGet m x = Backup.specDigest chain date x := by
  have h0 : Backup.agrees [] fun _ => none := fun x => rfl
  obtain ⟨m2, hm2, hag⟩ :=
    Backup.loadDigestGo_agrees st dom date snapshots chain [] _ h0 henc hwf
  exact ⟨m2, hm2, hag⟩

/-- Witness for C1: on the concrete chain, stopping at date 2, the digest
computed by `loadDigest` agrees with the spec fold (id `a` was overwritten
by snapshot 2, id `b` removed, `z` and `c` present, and snapshot 3 — which
removes `a` — is not applied). -/
theorem c1_witness :
    (Backup.loadDigest Backup.wStorage Backup.wSnaps "d" (some 2)).isSome = true ∧
    Backup.jsMapGet ((Backup.loadDigest Backup.wStorage Backup.wSnaps "d" (some 2)).getD [])
        ['a'] = some ['2'] ∧
    Backup.specDigest Backup.wChain (some 2) ['a'] = some ['2'] ∧
    Backup.jsMapGet ((Backup.loadDigest Backup.wStorage Backup.wSnaps "d" (some 2)).getD [])
        ['b'] = Backup.specDigest Backup.wChain (some 2) ['b'] := by
  obtain ⟨m, hm, hag⟩ := c1_loadDigest_spec_fold Backup.wStorage "d" Backup.wSnaps
    Backup.wChain (some 2) (by decide) (by decide)
  refine ⟨by rw [hm]; rfl, ?_, by decide, ?_⟩
  · rw [hm]
    show Backup.jsMapGet m ['a'] = some ['2']
    rw [hag ['a']]
    decide
  · rw [hm]
    show Backup.jsMapGet m ['b'] = Backup.specDigest Backup.wChain (some 2) ['b']
    exact hag ['b']

/-- C2: writing a change set with `writeChanges` and parsing the produced
line-oriented snapshot file the way `loadDigest` does is a round trip:
the decoded file yields exactly the added entries, then the updated
entries, then the removed ids. -/
theorem c2_writeChanges_roundtrip (c : Backup.Snapshot) (h : Backup.snapshotWF c) :
    Backup.decodeChanges (splitChar '\n' (Backup.writeChanges c)) =
      (c.added.map fun p => (p.1, some p.2),
       c.updated.map fun p => (p.1, some p.2),
       c.removed) :=
  Backup.decodeChanges_writeChanges c h

/-- Witness for C2: round trip on a concrete change set with one added
entry, one updated entry and one removed id. -/
theorem c2_witness :
    Backup.snapshotWF ⟨[(['a'], ['h'])], [(['b'], ['i'])], [['c']]⟩ ∧
    Backup.decodeChanges (splitChar '\n'
        (Backup.writeChanges ⟨[(['a'], ['h'])], [(['b'], ['i'])], [['c']]⟩)) =
      ([(['a'], some ['h'])], [(['b'], some ['i'])], [['c']]) :=
  ⟨by decide, by
    rw [c2_writeChanges_roundtrip ⟨[(['a'], ['h'])], [(['b'], ['i'])], [['c']]⟩ (by decide)]
    rfl⟩

namespace CoreStorage

theorem collectDocs_rem_le (est : DocInfo → Nat) :
    ∀ (iter : List DocInfo) (size : Nat),
      (collectDocs est iter size).2.1.length ≤ iter.length := by
  intro iter
  induction iter with
  | nil =>
    intro size
    unfold collectDocs
    by_cases h : chunkSize ≤ size <;> simp [h]
  | cons d rest ih =>
    intro size
    unfold collectDocs
    by_cases h : chunkSize ≤ size
    · simp [h]
    · simp only [h, if_false]
      exact Nat.le_succ_of_le (ih (size + est d))

theorem collectDocs_progress (est : DocInfo → Nat) (d : DocInfo) (rest : List DocInfo) :
    (collectDocs est (d :: rest) 0).2.1.length ≤ rest.length := by
  unfold collectDocs
  have h : ¬ chunkSize ≤ 0 := by unfold chunkSize; omega
  simp only [h, if_false, Nat.zero_add]
  exact collectDocs_rem_le est rest (est d)

theorem collectDocs_nil_finished (est : DocInfo → Nat) :
    (collectDocs est [] 0).2.2 = true := by
  unfold collectDocs
  have h : ¬ chunkSize ≤ 0 := by unfold chunkSize; omega
  simp [h]

theorem loadChunk_finished_eq (est : DocInfo → Nat) (ops : BackupClientOps) (idx : Nat)
    (ch : ChunkInfo) (h : mget ops.chunkInfo idx = some ch) (hf : ch.finished = true) :
    loadChunk est ops (some idx) =
      (⟨idx, [], true⟩,
       { ops with chunkInfo := mset ops.chunkInfo idx { ch with index := ch.index + 1 } }) := by
  unfold loadChunk
  simp [h, hf]

theorem loadChunk_unfinished_eq (est : DocInfo → Nat) (ops : BackupClientOps) (idx : Nat)
    (ch : ChunkInfo) (h : mget ops.chunkInfo idx = some ch) (hf : ch.finished = false) :
    loadChunk est ops (some idx) =
      (⟨idx, (collectDocs est ch.iterator 0).1, (collectDocs est ch.iterator 0).2.2⟩,
       { ops with chunkInfo :=
                    mset ops.chunkInfo idx
                      ({ ch with index := ch.index + 1,
                                 iterator := (collectDocs est ch.iterator 0).2.1,
                                 finished := (collectDocs est ch.iterator 0).2.2 }) }) := by
  unfold loadChunk
  simp [h, hf]

theorem loadChunk_eventually (est : DocInfo → Nat) :
    ∀ (fuel : Nat) (ops : BackupClientOps) (idx : Nat) (ch : ChunkInfo),
      mget ops.chunkInfo idx = some ch → ch.iterator.length ≤ fuel →
      ∃ n, n ≤ fuel ∧ (loadChunkN est ops idx n).1.finished = true := by
  intro fuel
  induction fuel with
  | zero =>
    intro ops idx ch h hlen
    have hnil : ch.iterator = [] := List.length_eq_zero.mp (Nat.le_zero.mp hlen)
    by_cases hf : ch.finished = true
    · exact ⟨0, Nat.le_refl 0, by unfold loadChunkN; rw [loadChunk_finished_eq est ops idx ch h hf]⟩
    · refine ⟨0, Nat.le_refl 0, ?_⟩
      unfold loadChunkN
      rw [loadChunk_unfinished_eq est ops idx ch h (Bool.not_eq_true _ ▸ hf)]
      simp only
      rw [hnil]
      exact collectDocs_nil_finished est
  | succ f ih =>
    intro ops idx ch h hlen
    by_cases hf : ch.finished = true
    · exact ⟨0, Nat.zero_le _, by unfold loadChunkN; rw [loadChunk_finished_eq est ops idx ch h hf]⟩
    · have hf2 : ch.finished = false := Bool.not_eq_true _ ▸ hf
      by_cases hdone : (collectDocs est ch.iterator 0).2.2 = true
      · refine ⟨0, Nat.zero_le _, ?_⟩
        unfold loadChunkN
        rw [loadChunk_unfinished_eq est ops idx ch h hf2]
        exact hdone
      · cases hiter : ch.iterator with
        | nil =>
          exact absurd (hiter ▸ collectDocs_nil_finished est) hdone
        | cons d rest =>
          set ops2 := (loadChunk est ops (some idx)).2 with hops2
          have hch3 : mget ops2.chunkInfo idx = some
              ({ ch with index := ch.index + 1,
                         iterator := (collectDocs est ch.iterator 0).2.1,
                         finished := (collectDocs est ch.iterator 0).2.2 }) := by
            rw [hops2, loadChunk_unfinished_eq est ops idx ch h hf2]
            simp [mget_mset]
          have hlen2 : (collectDocs est ch.iterator 0).2.1.length ≤ f := by
            have := collectDocs_progress est d rest
            rw [← hiter] at this
            have hrest : rest.length ≤ f := by
              rw [hiter] at hlen
              simpa using hlen
            omega
          obtain ⟨n, hn, hfin⟩ := ih ops2 idx _ hch3 hlen2
          exact ⟨n + 1, Nat.succ_le_succ hn, hfin⟩

end CoreStorage

/-- C3: a `loadChunk` call whose idx already reached `finished=true`
returns immediately with an empty docs list and `finished=true`, leaving
the underlying iterator untouched (only the per-cursor call counter is
bumped); and repeated `loadChunk` calls with the same allocated idx make
progress through the iterator and return `finished=true` after at most
one call more than the number of pending documents. -/
theorem c3_loadChunk_cursor (est : CoreStorage.DocInfo → Nat)
    (ops : CoreStorage.BackupClientOps) (idx : Nat) (ch : CoreStorage.ChunkInfo)
    (h : mget ops.chunkInfo idx = some ch) :
    (ch.finished = true →
      CoreStorage.loadChunk est ops (some idx) =
        (⟨idx, [], true⟩,
         { ops with chunkInfo := mset ops.chunkInfo idx { ch with index := ch.index + 1 } })) ∧
    (∃ n, n ≤ ch.iterator.length ∧
      (CoreStorage.loadChunkN est ops idx n).1.finished = true) := by
  constructor
  · intro hf
    exact CoreStorage.loadChunk_finished_eq est ops idx ch h hf
  · exact CoreStorage.loadChunk_eventually est ch.iterator.length ops idx ch h (Nat.le_refl _)

namespace Backup

theorem backupInfo_renormalize (b : BackupInfo) (ws : String)
    (hv : b.version = "0.6.2") (hw : b.workspace = ws) :
    ({ b with version := "0.6.2", workspace := ws } : BackupInfo) = b := by
  cases b
  simp_all

/-- A run over an already-recorded state is a no-op: when the stored
`lastTxId` matches the latest transaction and `force` is unset, `backupRun`
returns the input unchanged and reports the skip. -/
theorem backupRun_noop (dp : BackupInfo → BackupInfo) (ws : String) (info : BackupInfo)
    (t : String) (c : Bool) (now : Nat) (htx : info.lastTxId = some t)
    (hv : info.version = "0.6.2") (hw : info.workspace = ws) :
    backupRun dp ws info (some t) false c now = ⟨info, true⟩ := by
  have hren : ({ info with version := "0.6.2", workspace := ws } : BackupInfo) = info :=
    backupInfo_renormalize info ws hv hw
  have hsc : skipCond { info with version := "0.6.2", workspace := ws } (some t) false = true := by
    simp [skipCond, htx]
  rw [hren] at hsc
  simp [backupRun, hren, hsc]

end Backup

/-- Witness for C3: a finished cursor at idx 5 answers empty and finished,
and the stored iterator is untouched. -/
theorem c3_witness :
    CoreStorage.loadChunk (fun d => d.size)
        ⟨7, [(5, ⟨5, 2, true, [⟨"x", "h", 1⟩]⟩)], [⟨"x", "h", 1⟩]⟩ (some 5) =
      (⟨5, [], true⟩, ⟨7, [(5, ⟨5, 3, true, [⟨"x", "h", 1⟩]⟩)], [⟨"x", "h", 1⟩]⟩) := by
  have h := c3_loadChunk_cursor (fun d => d.size)
    ⟨7, [(5, ⟨5, 2, true, [⟨"x", "h", 1⟩]⟩)], [⟨"x", "h", 1⟩]⟩ 5
    ⟨5, 2, true, [⟨"x", "h", 1⟩]⟩ (by decide)
  rw [h.1 rfl]
  rfl

/-- C4: with `force=false`, a backup run whose latest transaction id equals
the previously recorded `lastTxId` returns immediately, appending no
snapshot and changing nothing but the normalized version/workspace fields;
a canceled run leaves `lastTxId` cleared (empty string) while an
uncanceled run records `lastTxId = lastTx._id`; hence running backup twice
with the same latest transaction performs no work on the second run. -/
theorem c4_backup_idempotent (dp : Backup.BackupInfo → Backup.BackupInfo)
    (hdp : Backup.dpPreserves dp) (ws : String) (info0 : Backup.BackupInfo) (t : String) :
    (∀ c now, info0.lastTxId = some t →
      Backup.backupRun dp ws info0 (some t) false c now =
        ⟨{ info0 with version := "0.6.2", workspace := ws }, true⟩) ∧
    (∀ force now,
      Backup.skipCond { info0 with version := "0.6.2", workspace := ws } (some t) force = false →
      (Backup.backupRun dp ws info0 (some t) force true now).info.lastTxId = some "") ∧
    (∀ force now,
      Backup.skipCond { info0 with version := "0.6.2", workspace := ws } (some t) force = false →
      (Backup.backupRun dp ws info0 (some t) force false now).info.lastTxId = some t) ∧
    (∀ force1 now1 now2 c2,
      (Backup.backupRun dp ws
          (Backup.backupRun dp ws info0 (some t) force1 false now1).info
          (some t) false c2 now2).skipped = true ∧
      (Backup.backupRun dp ws
          (Backup.backupRun dp ws info0 (some t) force1 false now1).info
          (some t) false c2 now2).info =
        (Backup.backupRun dp ws info0 (some t) force1 false now1).info) := by
  refine ⟨?_, ?_, ?_, ?_⟩
  · intro c now h
    have hsc : Backup.skipCond { info0 with version := "0.6.2", workspace := ws }
        (some t) false = true := by
      simp [Backup.skipCond, h]
    simp [Backup.backupRun, hsc]
  · intro force now hsc
    simp only [Backup.backupRun, hsc, Bool.false_eq_true, if_false]
    exact (hdp _).1
  · intro force now hsc
    simp [Backup.backupRun, hsc]
  · intro force1 now1 now2 c2
    have hdpv : ∀ bi, (dp bi).version = bi.version := fun bi => (hdp bi).2.1
    have hdpw : ∀ bi, (dp bi).workspace = bi.workspace := fun bi => (hdp bi).2.2
    have hfl : (Backup.backupRun dp ws info0 (some t) force1 false now1).info.lastTxId
        = some t := by
      by_cases hsc : Backup.skipCond { info0 with version := "0.6.2", workspace := ws }
          (some t) force1 = true
      · have htx : info0.lastTxId = some t := by
          unfold Backup.skipCond at hsc
          simp only [Bool.and_eq_true, decide_eq_true_eq] at hsc
          exact hsc.1
        rw [show Backup.backupRun dp ws info0 (some t) force1 false now1 =
          ⟨{ info0 with version := "0.6.2", workspace := ws }, true⟩ by
            simp [Backup.backupRun, hsc]]
        simpa using htx
      · have hscf := Bool.not_eq_true _ ▸ hsc
        simp [Backup.backupRun, hscf]
    have hfv : (Backup.backupRun dp ws info0 (some t) force1 false now1).info.version
        = "0.6.2" := by
      by_cases hsc : Backup.skipCond { info0 with version := "0.6.2", workspace := ws }
          (some t) force1 = true
      · simp [Backup.backupRun, hsc]
      · have hscf := Bool.not_eq_true _ ▸ hsc
        simp [Backup.backupRun, hscf, hdpv]
    have hfw : (Backup.backupRun dp ws info0 (some t) force1 false now1).info.workspace
        = ws := by
      by_cases hsc : Backup.skipCond { info0 with version := "0.6.2", workspace := ws }
          (some t) force1 = true
      · simp [Backup.backupRun, hsc]
      · have hscf := Bool.not_eq_true _ ▸ hsc
        simp [Backup.backupRun, hscf, hdpw]
    rw [Backup.backupRun_noop dp ws _ t c2 now2 hfl hfv hfw]
    exact ⟨rfl, rfl⟩

/-- Witness for C4: a run whose latest tx id matches the recorded one
skips outright, and a forced first run followed by an unforced second run
makes the second a no-op. -/
theorem c4_witness :
    Backup.backupRun id "w" ⟨"w", "0.6.2", [], none, some "t5"⟩ (some "t5") false false 9 =
      ⟨⟨"w", "0.6.2", [], none, some "t5"⟩, true⟩ ∧
    (Backup.backupRun id "w"
        (Backup.backupRun id "w" ⟨"w", "0.6.2", [], none, none⟩ (some "t5") true false 1).info
        (some "t5") false false 2).skipped = true := by
  have hdp : Backup.dpPreserves id := fun bi => ⟨rfl, rfl, rfl⟩
  constructor
  · have h := (c4_backup_idempotent id hdp "w" ⟨"w", "0.6.2", [], none, some "t5"⟩ "t5").1 false 9 rfl
    rw [h]
  · exact ((c4_backup_idempotent id hdp "w" ⟨"w", "0.6.2", [], none, none⟩ "t5").2.2.2 true 1 2 false).1

/-- C5: when the server has a configured model version, the resolved info
carries a differing version, and the token has neither the upgrade claim
nor the backup claim, `addSession` returns the upgrade-required value
instead of a session and instead of an error; with either claim present
the mismatch does not prevent session creation. -/
theorem c5_addSession_version_gate (modelVersion : String) (token : Ws.Token)
    (wi : Ws.WorkspaceLoginInfo) (existing : Option Ws.WorkspaceState) (v : Ws.Version) :
    (modelVersion ≠ "" → wi.version = some v → modelVersion ≠ Ws.versionToString v →
      token.extraModel ≠ some "upgrade" → token.extraMode ≠ some "backup" →
      wi.creating = false →
      Ws.addSession modelVersion token (some wi) existing = .upgrade) ∧
    (token.extraModel = some "upgrade" → wi.creating = false →
      Ws.addSession modelVersion token (some wi) existing = .session) ∧
    (token.extraMode = some "backup" → token.extraModel ≠ some "upgrade" →
      wi.creating = false →
      (∀ w, existing = some w → w.upgrade = false) →
      Ws.addSession modelVersion token (some wi) existing = .session) := by
  refine ⟨?_, ?_, ?_⟩
  · intro hmv hver hne hupg hbk hcr
    have hvm : Ws.versionMismatch modelVersion wi token = true := by
      simp [Ws.versionMismatch, hmv, hver, hne, hupg, hbk]
    simp [Ws.addSession, hcr, hvm]
  · intro hupg hcr
    have hvm : Ws.versionMismatch modelVersion wi token = false := by
      simp [Ws.versionMismatch, hupg]
    simp [Ws.addSession, hcr, hvm, hupg]
  · intro hbk hupg hcr hws
    have hvm : Ws.versionMismatch modelVersion wi token = false := by
      simp [Ws.versionMismatch, hbk]
    cases hex : existing with
    | none => simp [Ws.addSession, hcr, hvm, hupg]
    | some w =>
      have hw : w.upgrade = false := hws w hex
      simp [Ws.addSession, hcr, hvm, hupg, hw]

/-- Witness for C5: a mismatched version (`1.0.0` against workspace
`2.0.0`) without claims yields the upgrade signal; the same mismatch with
the backup claim on a non-upgrading workspace yields a session. -/
theorem c5_witness :
    Ws.addSession "1.0.0" ⟨"u@x", none, none, none⟩
        (some ⟨false, some ⟨2, 0, 0⟩⟩) (some ⟨false⟩) = .upgrade ∧
    Ws.addSession "1.0.0" ⟨"u@x", none, some "backup", none⟩
        (some ⟨false, some ⟨2, 0, 0⟩⟩) (some ⟨false⟩) = .session := by
  constructor
  · exact (c5_addSession_version_gate "1.0.0" ⟨"u@x", none, none, none⟩
      ⟨false, some ⟨2, 0, 0⟩⟩ (some ⟨false⟩) ⟨2, 0, 0⟩).1
      (by decide) rfl (by decide) (by decide) (by decide) rfl
  · exact (c5_addSession_version_gate "1.0.0" ⟨"u@x", none, some "backup", none⟩
      ⟨false, some ⟨2, 0, 0⟩⟩ (some ⟨false⟩) ⟨2, 0, 0⟩).2.2
      rfl (by decide) rfl (fun w hw => by cases hw; rfl)

/-- C7: a session whose silence exceeds the hang timeout is force-closed
on the next qualifying tick (`ticks % 10 = 0`); the timeout for the
privileged system account is 10 times the normal one, so a normal-user
session silent 70 seconds is closed on a qualifying tick while a
system-account session with the same silence is never closed. -/
theorem c7_hang_close (now lastRequest : Int) (user : String) (ticks : Nat) :
    (user ≠ Ws.systemAccountEmail → now - lastRequest > 60000 → ticks % 10 = 0 →
      Ws.sessionTick now lastRequest user ticks = .closeSocket) ∧
    (user = Ws.systemAccountEmail → now - lastRequest > 600000 → ticks % 10 = 0 →
      Ws.sessionTick now lastRequest user ticks = .closeSocket) ∧
    (user = Ws.systemAccountEmail → now - lastRequest ≤ 600000 →
      Ws.sessionTick now lastRequest user ticks ≠ .closeSocket) := by
  refine ⟨?_, ?_, ?_⟩
  · intro hu hd ht
    simp [Ws.sessionTick, hu, hd, ht]
  · intro hu hd ht
    unfold Ws.sessionTick
    rw [if_pos hu, if_pos ⟨by omega, ht⟩]
  · intro hu hd
    unfold Ws.sessionTick
    rw [if_pos hu]
    have hnc : ¬(now - lastRequest > 60000 * 10 ∧ ticks % 10 = 0) := by
      rintro ⟨h1, _⟩
      omega
    rw [if_neg hnc]
    split_ifs with h2
    · simp
    · simp

/-- Witness for C7: at 70 seconds of silence on tick 20, a normal user is
closed and the system account is not. -/
theorem c7_witness :
    Ws.sessionTick 70000 0 "user@x" 20 = .closeSocket ∧
    Ws.sessionTick 70000 0 Ws.systemAccountEmail 20 ≠ .closeSocket := by
  constructor
  · exact (c7_hang_close 70000 0 "user@x" 20).1 (by decide) (by decide) (by decide)
  · exact (c7_hang_close 70000 0 Ws.systemAccountEmail 20).2.2 rfl (by decide)

/-- Counterexample for C8 at concrete inputs: a tick with zero sessions
but a close already in flight resets `softShutdown` to 3 instead of
decrementing it, and when the pipeline wait/close fails the catch handler
removes the workspace from the live map even though the installed
workspace's id differs from the captured one. -/
theorem c8_counterexample :
    (Ws.workspaceTick ⟨"w1", 0, 2, true⟩).1.softShutdown = 3 ∧
    Ws.performWorkspaceCloseCheck [("k", ⟨"other", 0, 3, false⟩)]
        ⟨"orig", 0, 0, true⟩ "k" true = [] := by
  constructor
  · rfl
  · rfl

/-- C8 (amended): a tick with zero sessions and no close in flight
decrements `softShutdown`, triggering the close sequence exactly when the
decremented value reaches 0; any other tick (sessions present or close in
flight) resets the counter to 3, so a fresh countdown of 3 needs three
consecutive empty ticks; the close sequence, when the pipeline wait/close
succeeds, removes the workspace only if the installed workspace carries
the captured id (and only when the captured workspace still has no
sessions), while a pipeline failure removes it unconditionally. -/
theorem c8_soft_shutdown_amended (w : Ws.WorkspaceLife)
    (live : List (String × Ws.WorkspaceLife)) (captured : Ws.WorkspaceLife) (wsid : String) :
    (w.sessionsCount = 0 → w.closing = false →
      (Ws.workspaceTick w).1.softShutdown = w.softShutdown - 1 ∧
      ((Ws.workspaceTick w).2 = true ↔ w.softShutdown - 1 ≤ 0)) ∧
    (w.sessionsCount ≠ 0 ∨ w.closing = true →
      (Ws.workspaceTick w).1.softShutdown = 3 ∧ (Ws.workspaceTick w).2 = false) ∧
    (∀ id, Ws.workspaceTick ⟨id, 0, 3, false⟩ = (⟨id, 0, 2, false⟩, false) ∧
      Ws.workspaceTick ⟨id, 0, 2, false⟩ = (⟨id, 0, 1, false⟩, false) ∧
      Ws.workspaceTick ⟨id, 0, 1, false⟩ = (⟨id, 0, 0, true⟩, true)) ∧
    (captured.sessionsCount = 0 →
      (mget live wsid).map (fun x => x.id) ≠ some captured.id →
      Ws.performWorkspaceCloseCheck live captured wsid false = live) ∧
    (captured.sessionsCount = 0 →
      (mget live wsid).map (fun x => x.id) = some captured.id →
      Ws.performWorkspaceCloseCheck live captured wsid false = mdel live wsid) ∧
    (captured.sessionsCount ≠ 0 →
      ∀ b, Ws.performWorkspaceCloseCheck live captured wsid b = live) := by
  refine ⟨?_, ?_, ?_, ?_, ?_, ?_⟩
  · intro hs hc
    unfold Ws.workspaceTick
    rw [if_pos ⟨hs, hc⟩]
    by_cases hz : w.softShutdown - 1 ≤ 0
    · rw [if_pos hz]
      exact ⟨rfl, by simp [hz]⟩
    · rw [if_neg hz]
      exact ⟨rfl, by simp [hz]⟩
  · intro h
    unfold Ws.workspaceTick
    have hni : ¬(w.sessionsCount = 0 ∧ w.closing = false) := by
      rcases h with h | h
      · exact fun hh => h hh.1
      · intro hh
        rw [h] at hh
        exact absurd hh.2 (by decide)
    rw [if_neg hni]
    exact ⟨rfl, rfl⟩
  · intro id
    refine ⟨rfl, rfl, rfl⟩
  · intro hs hne
    unfold Ws.performWorkspaceCloseCheck
    rw [if_pos hs, if_neg (by simp), if_neg hne]
  · intro hs heq
    unfold Ws.performWorkspaceCloseCheck
    rw [if_pos hs, if_neg (by simp), if_pos heq]
  · intro hs b
    unfold Ws.performWorkspaceCloseCheck
    rw [if_neg hs]

/-- Witness for C8 (amended): a countdown tick on an idle workspace, the
three-tick close, and an id-mismatched close check that leaves the map
unchanged. -/
theorem c8_witness :
    Ws.workspaceTick ⟨"a", 0, 3, false⟩ = (⟨"a", 0, 2, false⟩, false) ∧
    Ws.performWorkspaceCloseCheck [("k", ⟨"other", 0, 3, false⟩)]
        ⟨"orig", 0, 0, true⟩ "k" false = [("k", ⟨"other", 0, 3, false⟩)] := by
  constructor
  · exact ((c8_soft_shutdown_amended ⟨"a", 0, 3, false⟩ [] ⟨"a", 0, 0, false⟩ "k").2.2.1 "a").1
  · exact (c8_soft_shutdown_amended ⟨"a", 0, 3, false⟩ [("k", ⟨"other", 0, 3, false⟩)]
      ⟨"orig", 0, 0, true⟩ "k").2.2.2.1 rfl (by decide)

namespace Ws

theorem sendLoop_nil (ic : Nat) (tot lk : Option Nat) (fuel cid : Nat) :
    sendLoop ic tot lk fuel [] cid = [] := by
  cases fuel <;> rfl

theorem sendLoop_cons (ic : Nat) (tot lk : Option Nat) (f cid d : Nat) (ds : List Nat) :
    sendLoop ic tot lk (f + 1) (d :: ds) cid =
      ⟨cid, ((d :: ds).drop (curOf ic (d :: ds).length)).isEmpty,
        (d :: ds).take (curOf ic (d :: ds).length),
        if ((d :: ds).drop (curOf ic (d :: ds).length)).isEmpty then some (tot.getD 0) else none,
        if ((d :: ds).drop (curOf ic (d :: ds).length)).isEmpty then lk else none⟩
      :: sendLoop ic tot lk f ((d :: ds).drop (curOf ic (d :: ds).length)) (cid + 1) := rfl

theorem curOf_pos (ic len : Nat) (hic : 1 ≤ ic) (hlen : 1 ≤ len) : 1 ≤ curOf ic len := by
  unfold curOf
  split_ifs
  · exact hlen
  · exact hic

theorem curOf_le (ic len : Nat) : 2 * min (curOf ic len) len ≤ 3 * ic := by
  unfold curOf
  split_ifs with hbr
  · have h4 : 2 * (len : Int) < 3 * (ic : Int) := by omega
    have h5 : 2 * len < 3 * ic := by exact_mod_cast h4
    simp only [Nat.min_self]
    omega
  · have hm : min ic len ≤ ic := Nat.min_le_left _ _
    omega

theorem sendLoop_spec (ic : Nat) (hic : 1 ≤ ic) (tot lk : Option Nat) :
    ∀ (fuel : Nat) (data : List Nat) (cid : Nat), data.length ≤ fuel → data ≠ [] →
      ((sendLoop ic tot lk fuel data cid).map Frame.result).flatten = data ∧
      (sendLoop ic tot lk fuel data cid).map Frame.index =
        List.range' cid (sendLoop ic tot lk fuel data cid).length ∧
      (sendLoop ic tot lk fuel data cid).map Frame.final =
        List.replicate ((sendLoop ic tot lk fuel data cid).length - 1) false ++ [true] ∧
      (∀ fr ∈ sendLoop ic tot lk fuel data cid, fr.final = false →
        fr.total = none ∧ fr.lookupMap = none) ∧
      (∀ fr ∈ sendLoop ic tot lk fuel data cid, fr.final = true →
        fr.total = some (tot.getD 0) ∧ fr.lookupMap = lk) ∧
      (∀ fr ∈ sendLoop ic tot lk fuel data cid, 2 * fr.result.length ≤ 3 * ic) := by
  intro fuel
  induction fuel with
  | zero =>
    intro data cid hlen hne
    cases data with
    | nil => exact absurd rfl hne
    | cons d ds => simp at hlen
  | succ f ih =>
    intro data cid hlen hne
    cases data with
    | nil => exact absurd rfl hne
    | cons d ds =>
      rw [sendLoop_cons]
      set cur := curOf ic (d :: ds).length with hcurdef
      have hcur1 : 1 ≤ cur := curOf_pos ic (d :: ds).length hic (by simp)
      have hcurlen : 2 * ((d :: ds).take cur).length ≤ 3 * ic := by
        rw [List.length_take]
        exact curOf_le ic (d :: ds).length
      by_cases hrest : (d :: ds).drop cur = []
      · have htake : (d :: ds).take cur = d :: ds := by
          have hgt : (d :: ds).length ≤ cur := by
            have := List.drop_eq_nil_iff.mp hrest
            omega
          exact List.take_of_length_le hgt
        rw [hrest, sendLoop_nil]
        simp only [List.isEmpty_nil, if_true]
        refine ⟨by simp [htake], by simp, by simp, ?_, ?_, ?_⟩
        · intro fr hfr hf
          simp only [List.mem_singleton] at hfr
          subst hfr
          simp at hf
        · intro fr hfr _
          simp only [List.mem_singleton] at hfr
          subst hfr
          exact ⟨rfl, rfl⟩
        · intro fr hfr
          simp only [List.mem_singleton] at hfr
          subst hfr
          exact hcurlen
      · have hie : ((d :: ds).drop cur).isEmpty = false := by
          cases hdc : (d :: ds).drop cur with
          | nil => exact absurd hdc hrest
          | cons a as => rfl
        rw [hie]
        simp only [Bool.false_eq_true, if_false]
        have hlenrest : ((d :: ds).drop cur).length ≤ f := by
          rw [List.length_drop]
          have hp : 0 < (d :: ds).length := by simp
          have hl : (d :: ds).length ≤ f + 1 := hlen
          omega
        obtain ⟨ih1, ih2, ih3, ih4, ih5, ih6⟩ := ih ((d :: ds).drop cur) (cid + 1) hlenrest hrest
        have hlfne : sendLoop ic tot lk f ((d :: ds).drop cur) (cid + 1) ≠ [] := by
          intro hnil
          rw [hnil] at ih1
          exact hrest (by simpa using ih1.symm)
        refine ⟨?_, ?_, ?_, ?_, ?_, ?_⟩
        · simp only [List.map_cons, List.flatten_cons, ih1]
          exact List.take_append_drop cur (d :: ds)
        · simp only [List.map_cons, List.length_cons, ih2]
          rw [List.range'_succ]
        · simp only [List.map_cons, List.length_cons, ih3]
          have hpos : 0 < (sendLoop ic tot lk f ((d :: ds).drop cur) (cid + 1)).length :=
            List.length_pos.mpr hlfne
          rw [show (sendLoop ic tot lk f ((d :: ds).drop cur) (cid + 1)).length + 1 - 1
            = ((sendLoop ic tot lk f ((d :: ds).drop cur) (cid + 1)).length - 1) + 1 by omega]
          rw [List.replicate_succ]
          rfl
        · intro fr hfr hf
          rcases List.mem_cons.mp hfr with hfr | hfr
          · subst hfr; exact ⟨rfl, rfl⟩
          · exact ih4 fr hfr hf
        · intro fr hfr hf
          rcases List.mem_cons.mp hfr with hfr | hfr
          · subst hfr; simp at hf
          · exact ih5 fr hfr hf
        · intro fr hfr
          rcases List.mem_cons.mp hfr with hfr | hfr
          · subst hfr
            exact hcurlen
          · exact ih6 fr hfr

theorem handleSend_eq_chunked (sz : Nat → Nat) (msg : ResponseMsg) (chunkLimit : Nat)
    (h1 : msg.result.length > 1) (h2 : chunkLimit > 0) :
    handleSend sz msg chunkLimit = .chunked (framesOf sz msg chunkLimit) := by
  unfold handleSend framesOf
  rw [if_pos ⟨h1, h2⟩]

end Ws

/-- Counterexample for C9 at a concrete input: four items of serialized
size 100 with a 300-byte chunk limit are delivered in a single frame of
serialized size 405, exceeding the per-chunk byte budget — the splitter
bounds the item count estimated from the average item size, not the byte
size of each frame. -/
theorem c9_counterexample :
    Ws.handleSend (fun _ => 100) ⟨[1, 2, 3, 4], some 4, none⟩ 300 =
      .chunked [⟨1, true, [1, 2, 3, 4], some 4, none⟩] ∧
    300 < Ws.jsonArrayLen (fun _ => 100) [1, 2, 3, 4] := by
  exact ⟨rfl, by decide⟩

/-- C9 (amended): an array result of more than one element sent with a
positive chunk limit over an open socket is delivered as chunk frames with
increasing index starting at 1, each frame holding at most 3/2 times the
item budget `round(chunkLimit/avgItemSize) + 1` items (the byte budget
bounds frames only through this average-size estimate, not per frame);
the concatenation of the frames' result arrays equals the original array,
`final=true` is set exactly on the last frame, and the total count and
lookup map ride only on the final frame. -/
theorem c9_handleSend_chunking_amended (sz : Nat → Nat) (msg : Ws.ResponseMsg)
    (chunkLimit : Nat) (h1 : msg.result.length > 1) (h2 : chunkLimit > 0) :
    Ws.handleSend sz msg chunkLimit = .chunked (Ws.framesOf sz msg chunkLimit) ∧
    ((Ws.framesOf sz msg chunkLimit).map Ws.Frame.result).flatten = msg.result ∧
    (Ws.framesOf sz msg chunkLimit).map Ws.Frame.index =
      List.range' 1 (Ws.framesOf sz msg chunkLimit).length ∧
    (Ws.framesOf sz msg chunkLimit).map Ws.Frame.final =
      List.replicate ((Ws.framesOf sz msg chunkLimit).length - 1) false ++ [true] ∧
    (∀ fr ∈ Ws.framesOf sz msg chunkLimit, fr.final = false →
      fr.total = none ∧ fr.lookupMap = none) ∧
    (∀ fr ∈ Ws.framesOf sz msg chunkLimit, fr.final = true →
      fr.total = some (msg.total.getD 0) ∧ fr.lookupMap = msg.lookupMap) ∧
    (∀ fr ∈ Ws.framesOf sz msg chunkLimit, 2 * fr.result.length ≤
      3 * (Ws.jsRound chunkLimit (Ws.jsRound (Ws.jsonArrayLen sz msg.result)
        msg.result.length) + 1)) := by
  have hne : msg.result ≠ [] := by
    intro h
    rw [h] at h1
    simp at h1
  obtain ⟨p1, p2, p3, p4, p5, p6⟩ := Ws.sendLoop_spec
    (Ws.jsRound chunkLimit (Ws.jsRound (Ws.jsonArrayLen sz msg.result) msg.result.length) + 1)
    (Nat.le_add_left 1 _) msg.total msg.lookupMap msg.result.length msg.result 1
    (Nat.le_refl _) hne
  exact ⟨Ws.handleSend_eq_chunked sz msg chunkLimit h1 h2, p1, p2, p3, p4, p5, p6⟩

/-- Witness for C9: five items of size 10 with a 15-byte limit give an
item budget of 2 and three frames `[1,2]`, `[3,4]`, `[5]`, the last one
final and carrying the metadata. -/
theorem c9_witness :
    Ws.handleSend (fun _ => 10) ⟨[1, 2, 3, 4, 5], some 7, some 9⟩ 15 =
      .chunked [⟨1, false, [1, 2], none, none⟩, ⟨2, false, [3, 4], none, none⟩,
        ⟨3, true, [5], some 7, some 9⟩] := by
  have h := c9_handleSend_chunking_amended (fun _ => 10) ⟨[1, 2, 3, 4, 5], some 7, some 9⟩ 15
    (by decide) (by decide)
  rw [h.1]
  rfl

namespace MoveTool

theorem moveQueue_foldl_acc (targetIds : List String) (sourceStat : String → Bool)
    (copyAttempts : String → Nat → Bool) :
    ∀ (blobs : List BlobRec) (acc : List String),
      blobs.foldl (processBlob targetIds sourceStat copyAttempts) acc =
        acc ++ ((blobs.filter (queued targetIds sourceStat copyAttempts)).map
          fun b => b.id) := by
  intro blobs
  induction blobs with
  | nil => intro acc; simp
  | cons b bs ih =>
    intro acc
    simp only [List.foldl_cons]
    rw [ih]
    by_cases h1 : b.id ∈ targetIds
    · have h1c : targetIds.contains b.id = true := by simpa using h1
      have hq : queued targetIds sourceStat copyAttempts b = true := by
        simp [queued, h1]
      simp [processBlob, h1, h1c, hq, List.filter_cons]
    · have h1c : targetIds.contains b.id = false := by simpa using h1
      by_cases h2 : sourceStat b.id = true
      · by_cases h3 : retryOk (copyAttempts b.id) 5 0 = true
        · have hq : queued targetIds sourceStat copyAttempts b = true := by
            simp [queued, h1, h2, h3]
          simp [processBlob, h1, h1c, h2, h3, hq, List.filter_cons]
        · have h3f : retryOk (copyAttempts b.id) 5 0 = false := by
            simpa using h3
          have hq : queued targetIds sourceStat copyAttempts b = false := by
            simp [queued, h1, h2, h3f]
          simp [processBlob, h1, h1c, h2, h3f, hq, List.filter_cons]
      · have h2f : sourceStat b.id = false := by simpa using h2
        have hq : queued targetIds sourceStat copyAttempts b = false := by
          simp [queued, h1, h2f]
        simp [processBlob, h1, h1c, h2f, hq, List.filter_cons]

theorem moveQueue_eq_filter (targetIds : List String) (sourceStat : String → Bool)
    (copyAttempts : String → Nat → Bool) (blobs : List BlobRec) :
    moveQueue targetIds sourceStat copyAttempts blobs =
      (blobs.filter (queued targetIds sourceStat copyAttempts)).map fun b => b.id := by
  unfold moveQueue
  rw [moveQueue_foldl_acc]
  simp

theorem chunkListGo_spec (n : Nat) (hn : 1 ≤ n) :
    ∀ (fuel : Nat) (l : List String), l.length ≤ fuel →
      (chunkListGo n fuel l).flatten = l ∧
      ∀ c ∈ chunkListGo n fuel l, c.length ≤ n := by
  intro fuel
  induction fuel with
  | zero =>
    intro l hl
    cases l with
    | nil => exact ⟨rfl, by intro c hc; simp [chunkListGo] at hc⟩
    | cons x xs => simp at hl
  | succ f ih =>
    intro l hl
    cases l with
    | nil => exact ⟨rfl, by intro c hc; simp [chunkListGo] at hc⟩
    | cons x xs =>
      have hrest : ((x :: xs).drop n).length ≤ f := by
        rw [List.length_drop]
        have : (x :: xs).length ≤ f + 1 := hl
        have hp : 0 < (x :: xs).length := by simp
        omega
      obtain ⟨ih1, ih2⟩ := ih ((x :: xs).drop n) hrest
      constructor
      · simp only [chunkListGo, List.flatten_cons, ih1]
        exact List.take_append_drop n (x :: xs)
      · intro c hc
        simp only [chunkListGo, List.mem_cons] at hc
        rcases hc with hc | hc
        · subst hc
          rw [List.length_take]
          exact Nat.min_le_left _ _
        · exact ih2 c hc

end MoveTool

/-- C6: a blob whose copy to the default provider fails after the per-blob
retries is not appended to the deletion queue and does not stop the
processing of the remaining blobs; the deletion pass covers exactly the
queued blobs, in batches of at most 500 ids, and runs only when the move
flag is set — so a failed blob's bytes stay on the source provider. -/
theorem c6_moveFiles_failure_isolation (targetIds : List String)
    (sourceStat : String → Bool) (copyAttempts : String → Nat → Bool)
    (blobs : List MoveTool.BlobRec) (move : Bool) (x : String) :
    ((∀ b ∈ blobs, b.id = x → MoveTool.queued targetIds sourceStat copyAttempts b = false) →
      x ∉ MoveTool.moveQueue targetIds sourceStat copyAttempts blobs) ∧
    (∀ b ∈ blobs, MoveTool.queued targetIds sourceStat copyAttempts b = true →
      b.id ∈ MoveTool.moveQueue targetIds sourceStat copyAttempts blobs) ∧
    (move = false → MoveTool.processAdapter move targetIds sourceStat copyAttempts blobs = []) ∧
    (move = true → MoveTool.moveQueue targetIds sourceStat copyAttempts blobs ≠ [] →
      (MoveTool.processAdapter move targetIds sourceStat copyAttempts blobs).flatten =
        MoveTool.moveQueue targetIds sourceStat copyAttempts blobs) ∧
    (∀ batch ∈ MoveTool.processAdapter move targetIds sourceStat copyAttempts blobs,
      batch.length ≤ 500) := by
  refine ⟨?_, ?_, ?_, ?_, ?_⟩
  · intro hall hx
    rw [MoveTool.moveQueue_eq_filter] at hx
    rw [List.mem_map] at hx
    obtain ⟨b, hb, hbid⟩ := hx
    rw [List.mem_filter] at hb
    have := hb.2
    rw [hall b hb.1 hbid] at this
    exact absurd this (by decide)
  · intro b hb hq
    rw [MoveTool.moveQueue_eq_filter, List.mem_map]
    exact ⟨b, List.mem_filter.mpr ⟨hb, hq⟩, rfl⟩
  · intro hm
    unfold MoveTool.processAdapter
    rw [if_neg]
    rintro ⟨_, hmv⟩
    rw [hm] at hmv
    exact absurd hmv (by decide)
  · intro hm hne
    unfold MoveTool.processAdapter
    rw [if_pos ⟨List.length_pos.mpr hne, hm⟩]
    exact (MoveTool.chunkListGo_spec 500 (by decide) _ _ (Nat.le_refl _)).1
  · intro batch hbatch
    unfold MoveTool.processAdapter at hbatch
    by_cases hc : (MoveTool.moveQueue targetIds sourceStat copyAttempts blobs).length > 0
        ∧ move = true
    · rw [if_pos hc] at hbatch
      exact (MoveTool.chunkListGo_spec 500 (by decide) _ _ (Nat.le_refl _)).2 batch hbatch
    · rw [if_neg hc] at hbatch
      simp at hbatch

/-- Witness for C6: among three source blobs, `b` fails all copy attempts;
`a` and `d` are moved and deleted in one batch of two ids while `b` stays
out of the deletion queue. -/
theorem c6_witness :
    "b" ∉ MoveTool.moveQueue [] (fun _ => true) (fun i _ => i ≠ "b")
      [⟨"a", "s3", 1⟩, ⟨"b", "s3", 1⟩, ⟨"d", "s3", 1⟩] ∧
    (MoveTool.processAdapter true [] (fun _ => true) (fun i _ => i ≠ "b")
      [⟨"a", "s3", 1⟩, ⟨"b", "s3", 1⟩, ⟨"d", "s3", 1⟩]).flatten = ["a", "d"] := by
  have h := c6_moveFiles_failure_isolation [] (fun _ => true) (fun i _ => i ≠ "b")
    [⟨"a", "s3", 1⟩, ⟨"b", "s3", 1⟩, ⟨"d", "s3", 1⟩] true "b"
  constructor
  · exact h.1 (by decide)
  · rw [h.2.2.2.1 rfl (by decide)]
    decide

namespace Restore

theorem performCleanGo_calls (c : String) :
    ∀ (fuel : Nat) (sched : List Bool) (docs : List String),
      ∀ call ∈ performCleanGo c fuel sched docs, call.1 = c ∧ call.2.length ≤ 10000 := by
  intro fuel
  induction fuel with
  | zero =>
    intro sched docs call hc
    simp [performCleanGo] at hc
  | succ f ih =>
    intro sched docs call hc
    cases docs with
    | nil => simp [performCleanGo] at hc
    | cons d ds =>
      cases sched with
      | nil =>
        simp only [performCleanGo, List.mem_cons] at hc
        rcases hc with hc | hc
        · subst hc
          exact ⟨rfl, by rw [List.length_take]; exact Nat.min_le_left _ _⟩
        · exact ih [] _ call hc
      | cons s s2 =>
        cases s with
        | true =>
          simp only [performCleanGo, List.mem_cons] at hc
          rcases hc with hc | hc
          · subst hc
            exact ⟨rfl, by rw [List.length_take]; exact Nat.min_le_left _ _⟩
          · exact ih s2 _ call hc
        | false =>
          simp only [performCleanGo] at hc
          exact ih s2 _ call hc

theorem performCleanGo_all_success (c : String) :
    ∀ (fuel : Nat) (docs : List String), docs.length ≤ fuel →
      ((performCleanGo c fuel [] docs).map fun call => call.2).flatten = docs := by
  intro fuel
  induction fuel with
  | zero =>
    intro docs hl
    cases docs with
    | nil => rfl
    | cons d ds => simp at hl
  | succ f ih =>
    intro docs hl
    cases docs with
    | nil => rfl
    | cons d ds =>
      have hrest : ((d :: ds).drop 10000).length ≤ f := by
        rw [List.length_drop]
        have hp : 0 < (d :: ds).length := by simp
        have : (d :: ds).length ≤ f + 1 := hl
        omega
      simp only [performCleanGo, List.map_cons, List.flatten_cons, ih _ hrest]
      exact List.take_append_drop 10000 (d :: ds)

end Restore

/-- C10: the restore removal pass never touches the blob domain — blob
documents present on the server but absent from the target digest stay in
place regardless of the merge option; for every other domain the batched
clean runs exactly when merge is not set, in batches of at most 10000 ids;
cleaning the doc-index-state domain additionally cleans the fulltext
domain with the same id set. -/
theorem c10_restore_removal_frame (c : String) (docsToRemove : List String)
    (merge : Bool) (schedF schedC : List Bool) :
    (c = Restore.DOMAIN_BLOB →
      Restore.restoreRemovalPass c docsToRemove merge schedF schedC = []) ∧
    (merge = true →
      Restore.restoreRemovalPass c docsToRemove merge schedF schedC = []) ∧
    (∀ call ∈ Restore.restoreRemovalPass c docsToRemove merge schedF schedC,
      (call.1 = c ∨ (c = Restore.DOMAIN_DOC_INDEX_STATE ∧
        call.1 = Restore.DOMAIN_FULLTEXT_BLOB)) ∧ call.2.length ≤ 10000) ∧
    (c ≠ Restore.DOMAIN_BLOB → merge = false → c ≠ Restore.DOMAIN_DOC_INDEX_STATE →
      ((Restore.restoreRemovalPass c docsToRemove merge [] []).map
        fun call => call.2).flatten = docsToRemove) ∧
    (c = Restore.DOMAIN_DOC_INDEX_STATE → merge = false →
      Restore.restoreRemovalPass c docsToRemove merge [] [] =
        Restore.performCleanOfDomain [] docsToRemove Restore.DOMAIN_FULLTEXT_BLOB
          ++ Restore.performCleanOfDomain [] docsToRemove c ∧
      ((Restore.performCleanOfDomain [] docsToRemove Restore.DOMAIN_FULLTEXT_BLOB).map
        fun call => call.2).flatten = docsToRemove) := by
  refine ⟨?_, ?_, ?_, ?_, ?_⟩
  · intro hc
    unfold Restore.restoreRemovalPass
    rw [if_neg (by simp [hc])]
  · intro hm
    unfold Restore.restoreRemovalPass
    by_cases hc : c ≠ Restore.DOMAIN_BLOB
    · rw [if_pos hc, if_neg (by rintro ⟨_, hmm⟩; exact hmm hm)]
    · rw [if_neg hc]
  · intro call hcall
    unfold Restore.restoreRemovalPass at hcall
    by_cases hc : c ≠ Restore.DOMAIN_BLOB
    · rw [if_pos hc] at hcall
      by_cases hrun : docsToRemove.length > 0 ∧ merge ≠ true
      · rw [if_pos hrun] at hcall
        rw [List.mem_append] at hcall
        rcases hcall with hcall | hcall
        · by_cases hdix : c = Restore.DOMAIN_DOC_INDEX_STATE
          · rw [if_pos hdix] at hcall
            obtain ⟨h1, h2⟩ := Restore.performCleanGo_calls Restore.DOMAIN_FULLTEXT_BLOB
              _ _ _ call hcall
            exact ⟨Or.inr ⟨hdix, h1⟩, h2⟩
          · rw [if_neg hdix] at hcall
            simp at hcall
        · obtain ⟨h1, h2⟩ := Restore.performCleanGo_calls c _ _ _ call hcall
          exact ⟨Or.inl h1, h2⟩
      · rw [if_neg hrun] at hcall
        simp at hcall
    · rw [if_neg hc] at hcall
      simp at hcall
  · intro hc hm hdix
    unfold Restore.restoreRemovalPass
    rw [if_pos hc]
    by_cases hlen : docsToRemove.length > 0
    · rw [if_pos ⟨hlen, by rw [hm]; exact Bool.false_ne_true⟩, if_neg hdix]
      simp only [List.nil_append]
      exact Restore.performCleanGo_all_success c _ _ (by simp [Restore.performCleanOfDomain])
    · have hnil : docsToRemove = [] := by
        cases docsToRemove with
        | nil => rfl
        | cons x xs => simp at hlen
      rw [hnil]
      rw [if_neg (by rintro ⟨hlp, _⟩; simp at hlp)]
      rfl
  · intro hdix hm
    constructor
    · unfold Restore.restoreRemovalPass
      by_cases hlen : docsToRemove.length > 0
      · rw [if_pos (by rw [hdix]; decide), if_pos ⟨hlen, by rw [hm]; exact Bool.false_ne_true⟩,
          if_pos hdix]
      · have hnil : docsToRemove = [] := by
          cases docsToRemove with
          | nil => rfl
          | cons x xs => simp at hlen
        subst hnil
        rw [if_pos (by rw [hdix]; decide), if_neg (by rintro ⟨hlp, _⟩; simp at hlp)]
        rfl
    · exact Restore.performCleanGo_all_success Restore.DOMAIN_FULLTEXT_BLOB _ _
        (by simp [Restore.performCleanOfDomain])

/-- Witness for C10: two ids in the blob domain are left alone; the same
ids in doc-index-state with merge off produce a fulltext clean and a
doc-index-state clean over the same id set. -/
theorem c10_witness :
    Restore.restoreRemovalPass "blob" ["x", "y"] false [] [] = [] ∧
    Restore.restoreRemovalPass "doc-index-state" ["x", "y"] false [] [] =
      [("fulltext-blob", ["x", "y"]), ("doc-index-state", ["x", "y"])] := by
  constructor
  · exact (c10_restore_removal_frame "blob" ["x", "y"] false [] []).1 rfl
  · have h := ((c10_restore_removal_frame "doc-index-state" ["x", "y"] false [] []).2.2.2.2
      rfl rfl).1
    rw [h]
    rfl

end Huly
